import Mathlib

/-!
Verification of the fingerprinting core of the plagiarism-detection system:
`winnow.py` (k-gram extraction, rolling hash, winnowing fingerprint selection),
the per-language normalizers, the normalizer factory, and the pairwise
similarity comparator of `plagiarism.py`.

Texts are embedded as `List Char`; Python `ord` is `Char.toNat`; Python's `%`
on integers with a positive modulus agrees with `Int.emod`, which `%` denotes
here.  Python `set`s of hashes become `Finset Int`.
-/

namespace Plagiat

/-- Python `ord c` as an integer. -/
def charVal (c : Char) : Int := (c.toNat : Int)

/-- Embedding of `get_kgrams(text, k)` from `winnow.py`:
returns `[]` when the text is empty, `k <= 0`, or `k > len(text)`;
otherwise the `len(text) - k + 1` slices `text[i : i+k]`. -/
def get_kgrams (text : List Char) (k : Int) : List (List Char) :=
  if text = [] ∨ k ≤ 0 ∨ (text.length : Int) < k then []
  else (List.range (text.length - k.toNat + 1)).map (fun i => (text.drop i).take k.toNat)

/-- One step of the Horner-style hash loop `h = (h * base + ord(char)) % prime`
from `rolling_hash` in `winnow.py`. -/
def hashStep (base prime : Int) (h : Int) (c : Char) : Int :=
  (h * base + charVal c) % prime

/-- The direct polynomial hash of one k-gram: the loop computing the hash of
`kgrams[0]` in `rolling_hash` (`winnow.py`), applied to an arbitrary k-gram. -/
def directHash (base prime : Int) (g : List Char) : Int :=
  g.foldl (hashStep base prime) 0

/-- The incremental part of `rolling_hash` (`winnow.py`): for each subsequent
k-gram, `h = ((h - out_char * high_order) * base + in_char) % prime` where
`out_char` is the first character of the previous k-gram and `in_char` the
last character of the current one.  `prev` is the previous k-gram and `h` its
hash.  (Python indexing `kgrams[i-1][0]` / `kgrams[i][-1]` would raise on an
empty k-gram; the `headD`/`getLastD` defaults are never reached for k-grams of
positive length, which is the only case the theorems below address.) -/
def rollSteps (base prime highOrder : Int) : List Char → Int → List (List Char) → List Int
  | _, _, [] => []
  | prev, h, g :: gs =>
    let outc := charVal (prev.headD default)
    let inc := charVal (g.getLastD default)
    let h2 := ((h - outc * highOrder) * base + inc) % prime
    h2 :: rollSteps base prime highOrder g h2 gs

/-- Embedding of `rolling_hash(kgrams, base, prime)` from `winnow.py`.
Raising `ValueError` is modelled as `Except.error`.  `high_order` is Python's
`pow(base, k - 1, prime)`; for `k ≥ 1` (the only case reachable from
`get_kgrams` and the only case treated by the theorems) this is
`base ^ (k - 1) % prime` with natural subtraction. -/
def rolling_hash (kgrams : List (List Char)) (base prime : Int) : Except String (List Int) :=
  match kgrams with
  | [] => .ok []
  | g0 :: rest =>
    let k := g0.length
    if (g0 :: rest).any (fun g => g.length ≠ k) then
      .error "All k-grams must have the same length"
    else
      let highOrder := base ^ (k - 1) % prime
      let h0 := directHash base prime g0
      .ok (h0 :: rollSteps base prime highOrder g0 h0 rest)

/-- Python `min` over a list of ints (`min(window)` in `select_fingerprints`);
`0` stands in for the `ValueError` on an empty list, which is unreachable in
the winnowing loop. -/
def pyMin : List Int → Int
  | [] => 0
  | x :: xs => xs.foldl min x

/-- The mutable loop state of `select_fingerprints` (`winnow.py`):
the growing set of `(min_val, min_pos)` pairs, `min_pos` (initially `-1`) and
`min_val` (initially `None`). -/
structure WinnowState where
  fps : Finset (Int × Int)
  minPos : Int
  minVal : Option Int

/-- One iteration of the `for i in range(len(hashes) - window_size + 1)` loop
of `select_fingerprints` (`winnow.py`): recompute the window minimum (taking
the first position, via `window.index`) when the previous minimum fell out of
the window, otherwise admit the entering rightmost value when it is `<=` the
tracked minimum. -/
def winnowStep (hashes : List Int) (w : Nat) (s : WinnowState) (i : Nat) : WinnowState :=
  let window := (hashes.drop i).take w
  if s.minPos < (i : Int) then
    let mv := pyMin window
    let mp : Int := (i : Int) + (window.indexOf mv : Int)
    { fps := insert (mv, mp) s.fps, minPos := mp, minVal := some mv }
  else
    let newVal := window.getLastD 0
    match s.minVal with
    | none =>
      { fps := insert (newVal, (i : Int) + (w : Int) - 1) s.fps
        minPos := (i : Int) + (w : Int) - 1
        minVal := some newVal }
    | some mv =>
      if newVal ≤ mv then
        { fps := insert (newVal, (i : Int) + (w : Int) - 1) s.fps
          minPos := (i : Int) + (w : Int) - 1
          minVal := some newVal }
      else s

/-- The final loop state of `select_fingerprints` (`winnow.py`).  Python's
`range(len(hashes) - window_size + 1)` is empty when `window_size` exceeds
`len(hashes)`; with natural subtraction this bound is `len + 1 - w`. -/
def winnowFinal (hashes : List Int) (window_size : Int) : WinnowState :=
  (List.range (hashes.length + 1 - window_size.toNat)).foldl
    (winnowStep hashes window_size.toNat) ⟨∅, -1, none⟩

/-- The set of `(min_val, min_pos)` pairs accumulated by
`select_fingerprints` (`winnow.py`), before positions are projected away. -/
def select_fingerprint_pairs (hashes : List Int) (window_size : Int) : Finset (Int × Int) :=
  if hashes = [] ∨ window_size ≤ 0 then ∅
  else (winnowFinal hashes window_size).fps

/-- Embedding of `select_fingerprints(hashes, window_size)` from `winnow.py`:
the guard returns the empty set, then `set(f[0] for f in fingerprints)`
projects the accumulated pairs to hash values. -/
def select_fingerprints (hashes : List Int) (window_size : Int) : Finset Int :=
  (select_fingerprint_pairs hashes window_size).image Prod.fst

/-- The text-level fingerprint pipeline of the claims (k-gram extraction,
rolling hash with the default `base = 256`, `prime = 101`, winnowing), the
normalization-free core of `robust_winnowing` (`winnow.py`).  A `ValueError`
from `rolling_hash` would propagate; it never occurs on `get_kgrams` output. -/
def text_fingerprints (text : List Char) (k w : Int) : Finset Int :=
  match rolling_hash (get_kgrams text k) 256 101 with
  | .ok hs => select_fingerprints hs w
  | .error _ => ∅

/-! ### Basic facts about `get_kgrams` -/

theorem get_kgrams_eq_map (text : List Char) (k : Int) (hk : 0 < k)
    (hkle : k ≤ (text.length : Int)) :
    get_kgrams text k =
      (List.range (text.length - k.toNat + 1)).map (fun i => (text.drop i).take k.toNat) := by
  have hne : text ≠ [] := by
    intro h
    subst h
    simp at hkle
    omega
  rw [get_kgrams, if_neg]
  push_neg
  exact ⟨hne, by omega, by omega⟩

theorem get_kgrams_length (text : List Char) (k : Int) (hk : 0 < k)
    (hkle : k ≤ (text.length : Int)) :
    (get_kgrams text k).length = text.length - k.toNat + 1 := by
  rw [get_kgrams_eq_map text k hk hkle]
  simp

theorem get_kgrams_getD (text : List Char) (k : Int) (hk : 0 < k)
    (hkle : k ≤ (text.length : Int)) (i : Nat) (hi : i < text.length - k.toNat + 1) :
    (get_kgrams text k).getD i [] = (text.drop i).take k.toNat := by
  rw [get_kgrams_eq_map text k hk hkle, List.getD_eq_getElem?_getD, List.getElem?_map,
    List.getElem?_range hi]
  rfl

theorem get_kgrams_mem_length (text : List Char) (k : Int) :
    ∀ g ∈ get_kgrams text k, g.length = k.toNat := by
  intro g hg
  rw [get_kgrams] at hg
  split at hg
  · simp at hg
  · rename_i h
    push_neg at h
    obtain ⟨-, hk, hle⟩ := h
    simp only [List.mem_map, List.mem_range] at hg
    obtain ⟨i, hi, rfl⟩ := hg
    rw [List.length_take, List.length_drop]
    omega

/-! ### Claim C3: the k-gram extractor contract -/

/-- C3.  `get_kgrams(text, k)` returns the empty sequence when the text is
empty, `k ≤ 0`, or `k` exceeds the text length; otherwise it returns exactly
`len(text) - k + 1` slices in order, slice `i` being `text[i : i+k]`, each of
length exactly `k`. -/
theorem C3_get_kgrams_contract (text : List Char) (k : Int) :
    ((text = [] ∨ k ≤ 0 ∨ (text.length : Int) < k) → get_kgrams text k = []) ∧
    (0 < k → k ≤ (text.length : Int) →
      (get_kgrams text k).length = text.length - k.toNat + 1 ∧
      ∀ i, i < text.length - k.toNat + 1 →
        (get_kgrams text k).getD i [] = (text.drop i).take k.toNat ∧
        ((get_kgrams text k).getD i []).length = k.toNat) := by
  constructor
  · intro h
    rw [get_kgrams, if_pos h]
  · intro hk hkle
    refine ⟨get_kgrams_length text k hk hkle, ?_⟩
    intro i hi
    refine ⟨get_kgrams_getD text k hk hkle i hi, ?_⟩
    rw [get_kgrams_getD text k hk hkle i hi, List.length_take, List.length_drop]
    omega

/-- Witness for C3 at `text = "abcd"`, `k = 2`. -/
theorem C3_witness :
    (get_kgrams "abcd".toList 2).length = "abcd".toList.length - (2 : Int).toNat + 1 ∧
    ∀ i, i < "abcd".toList.length - (2 : Int).toNat + 1 →
      (get_kgrams "abcd".toList 2).getD i [] = ("abcd".toList.drop i).take (2 : Int).toNat ∧
      ((get_kgrams "abcd".toList 2).getD i []).length = (2 : Int).toNat :=
  (C3_get_kgrams_contract "abcd".toList 2).2 (by decide) (by decide)

/-! ### Claim C4: winnower degenerate cases -/

/-- C4.  `select_fingerprints(hashes, w)` returns the empty set whenever the
hash list is empty, `w ≤ 0`, or `w` exceeds the length of the hash sequence. -/
theorem C4_select_fingerprints_degenerate (hashes : List Int) (w : Int)
    (h : hashes = [] ∨ w ≤ 0 ∨ (hashes.length : Int) < w) :
    select_fingerprints hashes w = ∅ := by
  unfold select_fingerprints select_fingerprint_pairs
  by_cases he : hashes = []
  · rw [if_pos (Or.inl he)]
    simp
  · by_cases hw : w ≤ 0
    · rw [if_pos (Or.inr hw)]
      simp
    · have hlt : (hashes.length : Int) < w := by tauto
      rw [if_neg (by tauto)]
      unfold winnowFinal
      have hz : hashes.length + 1 - w.toNat = 0 := by omega
      rw [hz]
      simp [List.range_zero, List.foldl_nil]

/-- Witness for C4 at `hashes = [1, 2]`, `w = 5`. -/
theorem C4_witness : select_fingerprints [1, 2] 5 = ∅ :=
  C4_select_fingerprints_degenerate [1, 2] 5 (Or.inr (Or.inr (by decide)))

/-! ### Bounds on the hash values (claim C10) -/

theorem foldl_hashStep_bound (b p : Int) (hp : 0 < p) :
    ∀ (g : List Char) (h : Int), g ≠ [] →
      0 ≤ g.foldl (hashStep b p) h ∧ g.foldl (hashStep b p) h < p := by
  intro g
  induction g with
  | nil => intro h hne; exact absurd rfl hne
  | cons c rest ih =>
    intro h _
    rcases List.eq_nil_or_concat rest with hr | _
    · subst hr
      simp only [List.foldl_cons, List.foldl_nil, hashStep]
      exact ⟨Int.emod_nonneg _ (ne_of_gt hp), Int.emod_lt_of_pos _ hp⟩
    · rw [List.foldl_cons]
      rcases rest with _ | ⟨d, rest'⟩
      · simp only [List.foldl_nil, hashStep]
        exact ⟨Int.emod_nonneg _ (ne_of_gt hp), Int.emod_lt_of_pos _ hp⟩
      · exact ih (hashStep b p h c) (by simp)

theorem directHash_bound (b p : Int) (hp : 0 < p) (g : List Char) (hg : g ≠ []) :
    0 ≤ directHash b p g ∧ directHash b p g < p :=
  foldl_hashStep_bound b p hp g 0 hg

theorem rollSteps_mem_bound (b p ho : Int) (hp : 0 < p) :
    ∀ (gs : List (List Char)) (prev : List Char) (h : Int),
      ∀ x ∈ rollSteps b p ho prev h gs, 0 ≤ x ∧ x < p := by
  intro gs
  induction gs with
  | nil => intro prev h x hx; simp [rollSteps] at hx
  | cons g gs' ih =>
    intro prev h x hx
    rw [rollSteps] at hx
    rcases List.mem_cons.mp hx with hx | hx
    · subst hx
      exact ⟨Int.emod_nonneg _ (ne_of_gt hp), Int.emod_lt_of_pos _ hp⟩
    · exact ih g _ x hx

theorem rolling_hash_cons (g0 : List Char) (rest : List (List Char)) (b p : Int)
    (hlen : ∀ g ∈ g0 :: rest, g.length = g0.length) :
    rolling_hash (g0 :: rest) b p =
      .ok (directHash b p g0 ::
        rollSteps b p (b ^ (g0.length - 1) % p) g0 (directHash b p g0) rest) := by
  rw [rolling_hash]
  have hany : ((g0 :: rest).any (fun g => g.length ≠ g0.length)) = false := by
    simp only [List.any_eq_false, decide_eq_true_eq, not_not]
    exact hlen
  rw [hany]
  rfl

/-- C10.  For every non-empty list of equal-length k-grams (of positive
length `k`) and positive `base` and `prime`, `rolling_hash` succeeds and every
hash it returns lies in `[0, prime)`, including the values produced by the
incremental update step. -/
theorem C10_hash_range (kgrams : List (List Char)) (base prime : Int) (k : Nat)
    (hk : 0 < k) (hne : kgrams ≠ []) (hlen : ∀ g ∈ kgrams, g.length = k)
    (hb : 0 < base) (hp : 0 < prime) :
    ∃ hs, rolling_hash kgrams base prime = .ok hs ∧ ∀ x ∈ hs, 0 ≤ x ∧ x < prime := by
  rcases kgrams with _ | ⟨g0, rest⟩
  · exact absurd rfl hne
  · have hlen' : ∀ g ∈ g0 :: rest, g.length = g0.length := by
      intro g hg
      rw [hlen g hg, hlen g0 (List.mem_cons_self _ _)]
    refine ⟨_, rolling_hash_cons g0 rest base prime hlen', ?_⟩
    intro x hx
    rcases List.mem_cons.mp hx with hx | hx
    · subst hx
      refine directHash_bound base prime hp g0 ?_
      have := hlen g0 (List.mem_cons_self _ _)
      intro hnil
      rw [hnil] at this
      simp at this
      omega
    · exact rollSteps_mem_bound base prime _ hp rest g0 _ x hx

/-- Witness for C10 at `kgrams = [['a','b'], ['b','c']]`, defaults
`base = 256`, `prime = 101`. -/
theorem C10_witness :
    ∃ hs, rolling_hash [['a', 'b'], ['b', 'c']] 256 101 = .ok hs ∧
      ∀ x ∈ hs, 0 ≤ x ∧ x < 101 :=
  C10_hash_range [['a', 'b'], ['b', 'c']] 256 101 2 (by decide) (by decide)
    (by decide) (by decide) (by decide)

/-! ### Rolling-hash agreement (claim C2)

The exact (un-reduced) polynomial value of a k-gram, and the congruence
lemmas relating it to the per-step reduced Horner hash of the source. -/

/-- The Horner step without the modulus. -/
def polyStep (b : Int) (h : Int) (c : Char) : Int := h * b + charVal c

/-- The exact polynomial value of a k-gram (no modulus). -/
def polyHash (b : Int) (g : List Char) : Int := g.foldl (polyStep b) 0

theorem foldl_polyStep_modeq (b p : Int) (g : List Char) :
    ∀ h h' : Int, h ≡ h' [ZMOD p] →
      g.foldl (polyStep b) h ≡ g.foldl (polyStep b) h' [ZMOD p] := by
  induction g with
  | nil => intro h h' hmod; exact hmod
  | cons c rest ih =>
    intro h h' hmod
    simp only [List.foldl_cons]
    exact ih _ _ (Int.ModEq.add_right _ (Int.ModEq.mul_right _ hmod))

theorem foldl_hashStep_eq_polyHash (b p : Int) :
    ∀ (g : List Char) (h : Int), g ≠ [] →
      g.foldl (hashStep b p) h = g.foldl (polyStep b) h % p := by
  intro g
  induction g with
  | nil => intro h hne; exact absurd rfl hne
  | cons c rest ih =>
    intro h _
    rcases rest with _ | ⟨d, rest'⟩
    · simp only [List.foldl_cons, List.foldl_nil, hashStep, polyStep]
    · have h1 : (c :: d :: rest').foldl (hashStep b p) h
          = (d :: rest').foldl (hashStep b p) (hashStep b p h c) := rfl
      have h2 : (c :: d :: rest').foldl (polyStep b) h
          = (d :: rest').foldl (polyStep b) (polyStep b h c) := rfl
      rw [h1, h2, ih (hashStep b p h c) (by simp)]
      have hmod : hashStep b p h c ≡ polyStep b h c [ZMOD p] := by
        unfold hashStep polyStep
        exact Int.emod_emod_of_dvd _ dvd_rfl
      exact foldl_polyStep_modeq b p _ _ _ hmod

theorem directHash_eq_polyHash_emod (b p : Int) (g : List Char) (hg : g ≠ []) :
    directHash b p g = polyHash b g % p :=
  foldl_hashStep_eq_polyHash b p g 0 hg

theorem foldl_polyStep_shift (b : Int) :
    ∀ (t : List Char) (a : Int),
      t.foldl (polyStep b) a = a * b ^ t.length + t.foldl (polyStep b) 0 := by
  intro t
  induction t with
  | nil => intro a; simp
  | cons y t' ih =>
    intro a
    simp only [List.foldl_cons, List.length_cons]
    rw [ih (polyStep b a y), ih (polyStep b 0 y)]
    unfold polyStep
    ring

theorem polyHash_cons (b : Int) (x : Char) (t : List Char) :
    polyHash b (x :: t) = charVal x * b ^ t.length + polyHash b t := by
  unfold polyHash
  simp only [List.foldl_cons]
  rw [foldl_polyStep_shift b t (polyStep b 0 x)]
  unfold polyStep
  ring_nf

theorem polyHash_concat (b : Int) (t : List Char) (c : Char) :
    polyHash b (t ++ [c]) = polyHash b t * b + charVal c := by
  unfold polyHash
  rw [List.foldl_append]
  simp [polyStep]

/-- The overlap relation between consecutive k-grams of one text: the next
k-gram is the previous one without its first character, plus one new final
character. -/
def KgramChain (g g' : List Char) : Prop := ∃ c, g' = g.drop 1 ++ [c]

/-- One incremental update of the rolling hash agrees with the direct hash of
the next k-gram, provided the two k-grams overlap. -/
theorem rollStep_agree (b p : Int) (k : Nat) (hk : 0 < k) (prev g : List Char)
    (hprev : prev.length = k) (hnext : g.length = k) (hchain : KgramChain prev g) :
    ((directHash b p prev - charVal (prev.headD default) * (b ^ (k - 1) % p)) * b +
        charVal (g.getLastD default)) % p = directHash b p g := by
  obtain ⟨c, hc⟩ := hchain
  rcases prev with _ | ⟨x, t⟩
  · simp at hprev; omega
  · have hne : (x :: t) ≠ [] := by simp
    have hgne : g ≠ [] := by
      rw [hc]; simp
    have htlen : t.length = k - 1 := by
      simp at hprev; omega
    have hlast : g.getLastD default = c := by
      rw [hc]
      simp [List.getLastD_concat]
    have hdrop : (x :: t).drop 1 = t := rfl
    rw [hlast, directHash_eq_polyHash_emod b p _ hne, directHash_eq_polyHash_emod b p g hgne,
      hc, hdrop, polyHash_concat]
    have hhead : (x :: t).headD default = x := rfl
    rw [hhead]
    have hcons : polyHash b (x :: t) = charVal x * b ^ (k - 1) + polyHash b t := by
      rw [polyHash_cons, htlen]
    rw [hcons]
    have : (((charVal x * b ^ (k - 1) + polyHash b t) % p -
        charVal x * (b ^ (k - 1) % p)) * b + charVal c) ≡
        ((charVal x * b ^ (k - 1) + polyHash b t -
          charVal x * b ^ (k - 1)) * b + charVal c) [ZMOD p] := by
      refine Int.ModEq.add_right _ (Int.ModEq.mul_right _ (Int.ModEq.sub ?_ ?_))
      · exact Int.emod_emod_of_dvd _ dvd_rfl
      · exact Int.ModEq.mul_left _ (Int.emod_emod_of_dvd _ dvd_rfl)
    calc (((charVal x * b ^ (k - 1) + polyHash b t) % p -
          charVal x * (b ^ (k - 1) % p)) * b + charVal c) % p
        = ((charVal x * b ^ (k - 1) + polyHash b t -
            charVal x * b ^ (k - 1)) * b + charVal c) % p := this
      _ = (polyHash b t * b + charVal c) % p := by ring_nf

theorem rollSteps_agree (b p : Int) (k : Nat) (hk : 0 < k) :
    ∀ (gs : List (List Char)) (prev : List Char),
      prev.length = k → (∀ g ∈ gs, g.length = k) →
      List.Chain' KgramChain (prev :: gs) →
      rollSteps b p (b ^ (k - 1) % p) prev (directHash b p prev) gs =
        gs.map (directHash b p) := by
  intro gs
  induction gs with
  | nil => intro prev _ _ _; rfl
  | cons g gs' ih =>
    intro prev hprev hlen hchain
    have hg : g.length = k := hlen g (List.mem_cons_self _ _)
    have hch : KgramChain prev g := (List.chain'_cons.mp hchain).1
    rw [rollSteps]
    have hstep := rollStep_agree b p k hk prev g hprev hg hch
    simp only [hstep]
    rw [List.map_cons]
    congr 1
    exact ih g hg (fun g' hg' => hlen g' (List.mem_cons_of_mem _ hg'))
      (List.chain'_cons.mp hchain).2

/-- The rolling hash agrees with the direct hash of every k-gram, for lists of
k-grams of one fixed positive length `k` whose consecutive elements overlap
(each k-gram is the previous one shifted by one character) — in particular,
for the k-gram list of any text. -/
theorem rolling_hash_agree (kgrams : List (List Char)) (b p : Int) (k : Nat)
    (hk : 0 < k) (hlen : ∀ g ∈ kgrams, g.length = k)
    (hchain : List.Chain' KgramChain kgrams) :
    rolling_hash kgrams b p = Except.ok (kgrams.map (directHash b p)) := by
  rcases kgrams with _ | ⟨g0, rest⟩
  · rfl
  · have hg0 : g0.length = k := hlen g0 (List.mem_cons_self _ _)
    have hlen' : ∀ g ∈ g0 :: rest, g.length = g0.length := by
      intro g hg
      rw [hlen g hg, hg0]
    rw [rolling_hash_cons g0 rest b p hlen', List.map_cons, hg0,
      rollSteps_agree b p k hk rest g0 hg0
        (fun g' hg' => hlen g' (List.mem_cons_of_mem _ hg')) hchain]

/-! ### Claim C2 (corrected): rolling-hash agreement needs overlapping k-grams

As stated — for an arbitrary non-empty list of equal-length k-grams — the
agreement is false: the incremental update assumes each k-gram extends the
previous one, so on the unrelated k-grams `["ab", "zz"]` the second rolling
hash is `61` while the direct hash of `"zz"` is `44`.  The agreement does hold
whenever consecutive k-grams overlap, which is the case for every k-gram list
produced by `get_kgrams`. -/

/-- Counterexample to C2 as stated: for the equal-length k-gram list
`["ab", "zz"]` (defaults `base = 256`, `prime = 101`), element `1` of the
rolling-hash output is `61`, while the direct Horner hash of `"zz"` is `44`. -/
theorem C2_counterexample :
    rolling_hash [['a', 'b'], ['z', 'z']] 256 101 = Except.ok [84, 61] ∧
    directHash 256 101 ['z', 'z'] = 44 ∧ (61 : Int) ≠ 44 := by
  refine ⟨rfl, by decide, by decide⟩

/-- C2, amended.  For every non-empty list of k-grams of one fixed positive
length `k` **whose consecutive k-grams overlap** (each k-gram is the previous
one with its first character dropped and one new character appended, as in the
output of `get_kgrams`) and positive `base` and `prime`, the list returned by
`rolling_hash` is exactly the list of direct Horner polynomial hashes mod
`prime` of the k-grams, at every index. -/
theorem C2_rolling_hash_agreement (kgrams : List (List Char)) (base prime : Int)
    (k : Nat) (hk : 0 < k) (hne : kgrams ≠ []) (hlen : ∀ g ∈ kgrams, g.length = k)
    (hchain : List.Chain' KgramChain kgrams)
    (hb : 0 < base) (hp : 0 < prime) :
    rolling_hash kgrams base prime = Except.ok (kgrams.map (directHash base prime)) :=
  rolling_hash_agree kgrams base prime k hk hlen hchain

/-- Witness for C2 (amended) at the k-gram list of the text `"abc"` with
`k = 2`: the rolling hashes equal the direct hashes. -/
theorem C2_witness :
    rolling_hash [['a', 'b'], ['b', 'c']] 256 101 =
      Except.ok ([['a', 'b'], ['b', 'c']].map (directHash 256 101)) :=
  C2_rolling_hash_agreement [['a', 'b'], ['b', 'c']] 256 101 2 (by decide)
    (by decide) (by decide)
    (by
      refine List.chain'_cons.mpr ⟨⟨'c', ?_⟩, List.chain'_singleton _⟩
      decide)
    (by decide) (by decide)

/-! ### Facts about `pyMin`, windows and `indexOf` -/

theorem pyMin_mem : ∀ (x : Int) (xs : List Int), pyMin (x :: xs) ∈ x :: xs := by
  intro x xs
  induction xs generalizing x with
  | nil => simp [pyMin]
  | cons y ys ih =>
    have h : pyMin (x :: y :: ys) = pyMin (min x y :: ys) := rfl
    rw [h]
    rcases List.mem_cons.mp (ih (min x y)) with h1 | h1
    · rw [h1]
      rcases le_total x y with hxy | hxy
      · rw [min_eq_left hxy]
        exact List.mem_cons_self _ _
      · rw [min_eq_right hxy]
        exact List.mem_cons_of_mem _ (List.mem_cons_self _ _)
    · exact List.mem_cons_of_mem _ (List.mem_cons_of_mem _ h1)

theorem pyMin_le : ∀ (x : Int) (xs : List Int), ∀ a ∈ x :: xs, pyMin (x :: xs) ≤ a := by
  intro x xs
  induction xs generalizing x with
  | nil =>
    intro a ha
    simp at ha
    simp [pyMin, ha]
  | cons y ys ih =>
    intro a ha
    have h : pyMin (x :: y :: ys) = pyMin (min x y :: ys) := rfl
    rw [h]
    have hmin : pyMin (min x y :: ys) ≤ min x y :=
      ih (min x y) (min x y) (List.mem_cons_self _ _)
    rcases List.mem_cons.mp ha with h1 | h1
    · rw [h1]
      exact le_trans hmin (min_le_left _ _)
    · rcases List.mem_cons.mp h1 with h2 | h2
      · rw [h2]
        exact le_trans hmin (min_le_right _ _)
      · exact ih (min x y) a (List.mem_cons_of_mem _ h2)

theorem pyMin_le_of_mem (l : List Int) (a : Int) (ha : a ∈ l) : pyMin l ≤ a := by
  rcases l with _ | ⟨x, xs⟩
  · simp at ha
  · exact pyMin_le x xs a ha

theorem pyMin_mem_of_ne (l : List Int) (hl : l ≠ []) : pyMin l ∈ l := by
  rcases l with _ | ⟨x, xs⟩
  · exact absurd rfl hl
  · exact pyMin_mem x xs

theorem pyMin_eq (l : List Int) (a : Int) (ha : a ∈ l) (hle : ∀ x ∈ l, a ≤ x) :
    pyMin l = a :=
  le_antisymm (pyMin_le_of_mem l a ha)
    (hle _ (pyMin_mem_of_ne l (List.ne_nil_of_mem ha)))

theorem getElem?_eq_some_getD {α : Type} [Inhabited α] (l : List α) (m : Nat)
    (h : m < l.length) (d : α) : l[m]? = some (l.getD m d) := by
  rw [List.getElem?_eq_getElem h, List.getD_eq_getElem?_getD, List.getElem?_eq_getElem h]
  rfl

theorem window_length (hashes : List Int) (w i : Nat) (hiw : i + w ≤ hashes.length) :
    ((hashes.drop i).take w).length = w := by
  rw [List.length_take, List.length_drop]
  omega

theorem window_getD (hashes : List Int) (w i p : Nat) (hp : p < w)
    (hiw : i + w ≤ hashes.length) :
    ((hashes.drop i).take w).getD p 0 = hashes.getD (i + p) 0 := by
  rw [List.getD_eq_getElem?_getD, List.getD_eq_getElem?_getD, List.getElem?_take,
    if_pos hp, List.getElem?_drop]

theorem window_mem (hashes : List Int) (w i : Nat) (hiw : i + w ≤ hashes.length)
    (x : Int) :
    (x ∈ (hashes.drop i).take w) ↔ ∃ p, p < w ∧ hashes.getD (i + p) 0 = x := by
  constructor
  · intro hx
    obtain ⟨p, hp⟩ := List.mem_iff_getElem?.mp hx
    have hplen : p < ((hashes.drop i).take w).length := by
      by_contra h
      rw [List.getElem?_eq_none (by omega)] at hp
      exact Option.noConfusion hp
    rw [window_length hashes w i hiw] at hplen
    refine ⟨p, hplen, ?_⟩
    rw [← window_getD hashes w i p hplen hiw, List.getD_eq_getElem?_getD, hp]
    rfl
  · rintro ⟨p, hpw, hx⟩
    refine List.mem_iff_getElem?.mpr ⟨p, ?_⟩
    rw [List.getElem?_take, if_pos hpw, List.getElem?_drop,
      getElem?_eq_some_getD hashes (i + p) (by omega) 0, hx]

theorem window_getLastD (hashes : List Int) (w i : Nat) (hw : 0 < w)
    (hiw : i + w ≤ hashes.length) :
    ((hashes.drop i).take w).getLastD 0 = hashes.getD (i + w - 1) 0 := by
  have hlen := window_length hashes w i hiw
  rw [List.getLastD_eq_getLast?, List.getLast?_eq_getElem?, hlen]
  rw [show ((hashes.drop i).take w)[w - 1]? =
      some (((hashes.drop i).take w).getD (w - 1) 0) from
    getElem?_eq_some_getD _ _ (by omega) 0]
  rw [window_getD hashes w i (w - 1) (by omega) hiw]
  have : i + (w - 1) = i + w - 1 := by omega
  rw [this]
  rfl

theorem indexOf_getD (l : List Int) (a : Int) (ha : a ∈ l) :
    l.getD (l.indexOf a) 0 = a := by
  have hlt : l.indexOf a < l.length := List.indexOf_lt_length.mpr ha
  rw [List.getD_eq_getElem?_getD, List.getElem?_eq_getElem hlt]
  simp [List.getElem_indexOf hlt]

theorem getD_ne_of_lt_indexOf (l : List Int) (a : Int) :
    ∀ q, q < l.indexOf a → l.getD q 0 ≠ a := by
  induction l with
  | nil => intro q hq; simp [List.indexOf] at hq
  | cons x xs ih =>
    intro q hq
    by_cases hxa : x = a
    · rw [hxa, List.indexOf_cons_self] at hq
      omega
    · rw [List.indexOf_cons_ne _ (by exact fun h => hxa h)] at hq
      rcases q with _ | q'
      · simpa using hxa
      · have : xs.getD q' 0 ≠ a := ih q' (by omega)
        simpa using this

/-! ### The winnowing loop invariant -/

/-- Invariant of the `select_fingerprints` loop after processing window `i`:
the tracked `(min_val, min_pos)` pair holds the minimum value of window `i`
at a position inside the window, that pair is in the accumulated set, and the
minimum value of every window processed so far appears among the projected
fingerprint values. -/
def WinnowInv (hashes : List Int) (w : Nat) (i : Nat) (s : WinnowState) : Prop :=
  ∃ (mv : Int) (mp : Nat), s.minVal = some mv ∧ s.minPos = (mp : Int) ∧
    i ≤ mp ∧ mp < i + w ∧
    hashes.getD mp 0 = mv ∧
    mv = pyMin ((hashes.drop i).take w) ∧
    (mv, (mp : Int)) ∈ s.fps ∧
    ∀ j ≤ i, pyMin ((hashes.drop j).take w) ∈ s.fps.image Prod.fst

theorem winnowStep_recompute (hashes : List Int) (w : Nat) (i : Nat)
    (s : WinnowState) (hc : s.minPos < (i : Int)) :
    winnowStep hashes w s i =
      { fps := insert (pyMin ((hashes.drop i).take w),
          ((i + ((hashes.drop i).take w).indexOf (pyMin ((hashes.drop i).take w)) : Nat) : Int))
          s.fps
        minPos :=
          ((i + ((hashes.drop i).take w).indexOf (pyMin ((hashes.drop i).take w)) : Nat) : Int)
        minVal := some (pyMin ((hashes.drop i).take w)) } := by
  simp only [winnowStep]
  rw [if_pos hc]
  simp [Nat.cast_add]

theorem winnowStep_keep (hashes : List Int) (w : Nat) (i : Nat)
    (s : WinnowState) (mv : Int) (hc : ¬ s.minPos < (i : Int)) (hval : s.minVal = some mv)
    (hgt : ¬ ((hashes.drop i).take w).getLastD 0 ≤ mv) :
    winnowStep hashes w s i = s := by
  simp only [winnowStep]
  rw [if_neg hc, hval]
  simp only
  rw [if_neg hgt]

theorem winnowStep_enter (hashes : List Int) (w : Nat) (hw : 0 < w) (i : Nat)
    (s : WinnowState) (mv : Int) (hc : ¬ s.minPos < (i : Int)) (hval : s.minVal = some mv)
    (hle : ((hashes.drop i).take w).getLastD 0 ≤ mv) :
    winnowStep hashes w s i =
      { fps := insert (((hashes.drop i).take w).getLastD 0, ((i + w - 1 : Nat) : Int)) s.fps
        minPos := ((i + w - 1 : Nat) : Int)
        minVal := some (((hashes.drop i).take w).getLastD 0) } := by
  simp only [winnowStep]
  rw [if_neg hc, hval]
  simp only
  rw [if_pos hle]
  have hcast : ((i : Int) + (w : Int) - 1) = ((i + w - 1 : Nat) : Int) := by
    push_cast [Nat.cast_sub (by omega : 1 ≤ i + w)]
    ring
  rw [hcast]

theorem winnow_inv_zero (hashes : List Int) (w : Nat) (hw : 0 < w)
    (h0 : w ≤ hashes.length) :
    WinnowInv hashes w 0 (winnowStep hashes w ⟨∅, -1, none⟩ 0) := by
  have hc : (⟨∅, -1, none⟩ : WinnowState).minPos < ((0 : Nat) : Int) := by norm_num
  rw [winnowStep_recompute hashes w 0 _ hc]
  have hWlen : ((hashes.drop 0).take w).length = w := window_length hashes w 0 (by omega)
  have hWne : (hashes.drop 0).take w ≠ [] := by
    intro h
    rw [h] at hWlen
    simp at hWlen
    omega
  have hmemW : pyMin ((hashes.drop 0).take w) ∈ (hashes.drop 0).take w :=
    pyMin_mem_of_ne _ hWne
  have hidx : ((hashes.drop 0).take w).indexOf (pyMin ((hashes.drop 0).take w)) < w := by
    have := List.indexOf_lt_length.mpr hmemW
    rwa [hWlen] at this
  refine ⟨pyMin ((hashes.drop 0).take w),
    0 + ((hashes.drop 0).take w).indexOf (pyMin ((hashes.drop 0).take w)),
    rfl, rfl, by omega, by omega, ?_, rfl, Finset.mem_insert_self _ _, ?_⟩
  · rw [← window_getD hashes w 0 _ hidx (by omega)]
    exact indexOf_getD _ _ hmemW
  · intro j hj
    have hj0 : j = 0 := by omega
    subst hj0
    exact Finset.mem_image_of_mem _ (Finset.mem_insert_self _ _)

theorem winnow_inv_step (hashes : List Int) (w : Nat) (hw : 0 < w) (i : Nat)
    (hiw : i + 1 + w ≤ hashes.length) (s : WinnowState)
    (hs : WinnowInv hashes w i s) :
    WinnowInv hashes w (i + 1) (winnowStep hashes w s (i + 1)) := by
  obtain ⟨mv, mp, hval, hpos, hmp1, hmp2, hget, hminw, hmem, hall⟩ := hs
  have hiw' : (i + 1) + w ≤ hashes.length := hiw
  have hWlen : ((hashes.drop (i + 1)).take w).length = w := window_length _ _ _ hiw'
  have hWne : (hashes.drop (i + 1)).take w ≠ [] := by
    intro h
    rw [h] at hWlen
    simp at hWlen
    omega
  have hlast : ((hashes.drop (i + 1)).take w).getLastD 0 = hashes.getD (i + w) 0 := by
    rw [window_getLastD hashes w (i + 1) hw hiw']
    congr 1
    omega
  by_cases hc : mp < i + 1
  · -- the previous minimum fell out of the window: recompute
    have hcInt : s.minPos < ((i + 1 : Nat) : Int) := by
      rw [hpos]
      exact_mod_cast hc
    rw [winnowStep_recompute hashes w (i + 1) s hcInt]
    have hmemW : pyMin ((hashes.drop (i + 1)).take w) ∈ (hashes.drop (i + 1)).take w :=
      pyMin_mem_of_ne _ hWne
    have hidx : ((hashes.drop (i + 1)).take w).indexOf
        (pyMin ((hashes.drop (i + 1)).take w)) < w := by
      have := List.indexOf_lt_length.mpr hmemW
      rwa [hWlen] at this
    refine ⟨pyMin ((hashes.drop (i + 1)).take w),
      (i + 1) + ((hashes.drop (i + 1)).take w).indexOf (pyMin ((hashes.drop (i + 1)).take w)),
      rfl, rfl, by omega, by omega, ?_, rfl, Finset.mem_insert_self _ _, ?_⟩
    · rw [← window_getD hashes w (i + 1) _ hidx hiw']
      exact indexOf_getD _ _ hmemW
    · intro j hj
      rcases Nat.lt_or_ge j (i + 1) with hj' | hj'
      · obtain ⟨pr, hpr, heq⟩ := Finset.mem_image.mp (hall j (by omega))
        exact Finset.mem_image.mpr ⟨pr, Finset.mem_insert_of_mem hpr, heq⟩
      · have hj1 : j = i + 1 := by omega
        subst hj1
        exact Finset.mem_image_of_mem _ (Finset.mem_insert_self _ _)
  · -- the previous minimum is still inside the window
    have hcInt : ¬ s.minPos < ((i + 1 : Nat) : Int) := by
      rw [hpos]
      push_neg
      exact_mod_cast (by omega : i + 1 ≤ mp)
    -- every window element other than the entering one is bounded below by mv
    have hbelow : ∀ x ∈ (hashes.drop (i + 1)).take w, x ≠ hashes.getD (i + w) 0 → mv ≤ x := by
      intro x hx hxne
      obtain ⟨p, hp, hxval⟩ := (window_mem hashes w (i + 1) hiw' x).mp hx
      rcases Nat.lt_or_ge p (w - 1) with hp' | hp'
      · have hxmem : x ∈ (hashes.drop i).take w := by
          refine (window_mem hashes w i (by omega) x).mpr ⟨p + 1, by omega, ?_⟩
          rw [show i + (p + 1) = i + 1 + p by omega]
          exact hxval
        rw [hminw]
        exact pyMin_le_of_mem _ x hxmem
      · exfalso
        apply hxne
        rw [← hxval]
        congr 1
        omega
    by_cases hle : ((hashes.drop (i + 1)).take w).getLastD 0 ≤ mv
    · -- the entering value becomes the new minimum
      rw [winnowStep_enter hashes w hw (i + 1) s mv hcInt hval hle]
      rw [hlast] at hle ⊢
      have hnvmem : hashes.getD (i + w) 0 ∈ (hashes.drop (i + 1)).take w := by
        refine (window_mem hashes w (i + 1) hiw' _).mpr ⟨w - 1, by omega, ?_⟩
        congr 1
        omega
      have hnvmin : pyMin ((hashes.drop (i + 1)).take w) = hashes.getD (i + w) 0 := by
        refine pyMin_eq _ _ hnvmem ?_
        intro x hx
        by_cases hxe : x = hashes.getD (i + w) 0
        · rw [hxe]
        · exact le_trans hle (hbelow x hx hxe)
      have hidxeq : i + 1 + w - 1 = i + w := by omega
      rw [hidxeq]
      refine ⟨hashes.getD (i + w) 0, i + w, rfl, rfl, by omega, by omega, rfl,
        hnvmin.symm, Finset.mem_insert_self _ _, ?_⟩
      intro j hj
      rcases Nat.lt_or_ge j (i + 1) with hj' | hj'
      · obtain ⟨pr, hpr, heq⟩ := Finset.mem_image.mp (hall j (by omega))
        exact Finset.mem_image.mpr ⟨pr, Finset.mem_insert_of_mem hpr, heq⟩
      · have hj1 : j = i + 1 := by omega
        subst hj1
        rw [hnvmin]
        exact Finset.mem_image_of_mem _ (Finset.mem_insert_self _ _)
    · -- the tracked pair remains the window minimum
      rw [winnowStep_keep hashes w (i + 1) s mv hcInt hval hle]
      rw [hlast] at hle
      have hmvmem : mv ∈ (hashes.drop (i + 1)).take w := by
        refine (window_mem hashes w (i + 1) hiw' mv).mpr ⟨mp - (i + 1), by omega, ?_⟩
        rw [show i + 1 + (mp - (i + 1)) = mp by omega]
        exact hget
      have hmvmin : pyMin ((hashes.drop (i + 1)).take w) = mv := by
        refine pyMin_eq _ _ hmvmem ?_
        intro x hx
        by_cases hxe : x = hashes.getD (i + w) 0
        · rw [hxe]
          exact le_of_lt (not_le.mp hle)
        · exact hbelow x hx hxe
      refine ⟨mv, mp, hval, hpos, by omega, by omega, hget, hmvmin.symm, hmem, ?_⟩
      intro j hj
      rcases Nat.lt_or_ge j (i + 1) with hj' | hj'
      · exact hall j (by omega)
      · have hj1 : j = i + 1 := by omega
        subst hj1
        rw [hmvmin]
        exact Finset.mem_image_of_mem Prod.fst hmem

theorem winnow_inv_fold (hashes : List Int) (w : Nat) (hw : 0 < w) :
    ∀ m, m + w ≤ hashes.length →
      WinnowInv hashes w m
        ((List.range (m + 1)).foldl (winnowStep hashes w) ⟨∅, -1, none⟩) := by
  intro m
  induction m with
  | zero =>
    intro h
    rw [show List.range (0 + 1) = [0] from rfl]
    simp only [List.foldl_cons, List.foldl_nil]
    exact winnow_inv_zero hashes w hw (by omega)
  | succ m ih =>
    intro h
    rw [List.range_succ, List.foldl_append]
    simp only [List.foldl_cons, List.foldl_nil]
    exact winnow_inv_step hashes w hw m h _ (ih (by omega))

/-- Every window's minimum value is selected as a fingerprint: the central
correctness property of `select_fingerprints`. -/
theorem window_min_selected (hashes : List Int) (w : Nat) (hw : 0 < w) (i : Nat)
    (hiw : i + w ≤ hashes.length) :
    pyMin ((hashes.drop i).take w) ∈ select_fingerprints hashes (w : Int) := by
  have hne : hashes ≠ [] := by
    intro h
    rw [h] at hiw
    simp at hiw
    omega
  have hguard : ¬(hashes = [] ∨ (w : Int) ≤ 0) := by
    push_neg
    exact ⟨hne, by exact_mod_cast hw⟩
  unfold select_fingerprints select_fingerprint_pairs
  rw [if_neg hguard]
  unfold winnowFinal
  have htn : (w : Int).toNat = w := by simp
  rw [htn]
  have hB : hashes.length + 1 - w = (hashes.length - w) + 1 := by omega
  rw [hB]
  obtain ⟨mv, mp, -, -, -, -, -, -, -, hall⟩ :=
    winnow_inv_fold hashes w hw (hashes.length - w) (by omega)
  exact hall i (by omega)

/-! ### Claim C5 (corrected): the tie-break rule of the winnowing loop

The spec says the **rightmost** position achieving the window minimum is the
candidate chosen for each window.  The code disagrees: when the previous
minimum has dropped out of the window it recomputes with `window.index`,
which returns the **leftmost** position of the minimum.  Only when the
previous minimum is still inside the window and the entering value ties
(`new_val <= min_val`) is the rightmost (entering) position chosen. -/

/-- Counterexample to C5 as stated: for `hashes = [1, 3, 1]` and `w = 3`
there is a single window, whose minimum value `1` is also achieved at the
rightmost in-window position `2`; yet the selected candidate is `(1, 0)`
(the leftmost), and `(1, 2)` is not selected. -/
theorem C5_counterexample :
    select_fingerprint_pairs [1, 3, 1] 3 = {((1 : Int), (0 : Int))} ∧
    pyMin [(1 : Int), 3, 1] = 1 ∧
    [(1 : Int), 3, 1].getD 2 0 = 1 ∧
    ((1 : Int), (2 : Int)) ∉ select_fingerprint_pairs [1, 3, 1] 3 := by
  refine ⟨by decide, by decide, by decide, by decide⟩

/-- C5, amended.  For every hash list, window size `0 < w` and window index
`i` with `i + w ≤ len(hashes)`, and every loop state: if the previously
selected position has slid out of the window, the candidate selected for
window `i` is the **leftmost** position of the window achieving the window's
minimum value; otherwise a new candidate is selected exactly when the
entering rightmost value is `≤` the tracked minimum, in which case the
rightmost window position is chosen, and otherwise the state is unchanged. -/
theorem C5_winnow_tiebreak (hashes : List Int) (w : Nat) (hw : 0 < w) (i : Nat)
    (hiw : i + w ≤ hashes.length) (s : WinnowState) :
    (s.minPos < (i : Int) →
      ∃ (m : Int) (p : Nat), p < w ∧
        winnowStep hashes w s i =
          { fps := insert (m, ((i + p : Nat) : Int)) s.fps
            minPos := ((i + p : Nat) : Int), minVal := some m } ∧
        hashes.getD (i + p) 0 = m ∧
        (∀ x ∈ (hashes.drop i).take w, m ≤ x) ∧
        (∀ q, q < p → hashes.getD (i + q) 0 ≠ m)) ∧
    (¬ s.minPos < (i : Int) → ∀ mv, s.minVal = some mv →
      (hashes.getD (i + w - 1) 0 ≤ mv →
        winnowStep hashes w s i =
          { fps := insert (hashes.getD (i + w - 1) 0, ((i + w - 1 : Nat) : Int)) s.fps
            minPos := ((i + w - 1 : Nat) : Int)
            minVal := some (hashes.getD (i + w - 1) 0) }) ∧
      (mv < hashes.getD (i + w - 1) 0 → winnowStep hashes w s i = s)) := by
  have hWlen : ((hashes.drop i).take w).length = w := window_length _ _ _ hiw
  have hWne : (hashes.drop i).take w ≠ [] := by
    intro h
    rw [h] at hWlen
    simp at hWlen
    omega
  have hlast : ((hashes.drop i).take w).getLastD 0 = hashes.getD (i + w - 1) 0 :=
    window_getLastD hashes w i hw hiw
  constructor
  · intro hc
    have hmemW : pyMin ((hashes.drop i).take w) ∈ (hashes.drop i).take w :=
      pyMin_mem_of_ne _ hWne
    have hidx : ((hashes.drop i).take w).indexOf (pyMin ((hashes.drop i).take w)) < w := by
      have := List.indexOf_lt_length.mpr hmemW
      rwa [hWlen] at this
    refine ⟨pyMin ((hashes.drop i).take w),
      ((hashes.drop i).take w).indexOf (pyMin ((hashes.drop i).take w)), hidx,
      winnowStep_recompute hashes w i s hc, ?_, ?_, ?_⟩
    · rw [← window_getD hashes w i _ hidx hiw]
      exact indexOf_getD _ _ hmemW
    · intro x hx
      exact pyMin_le_of_mem _ x hx
    · intro q hq
      rw [← window_getD hashes w i q (by omega) hiw]
      exact getD_ne_of_lt_indexOf _ _ q hq
  · intro hc mv hval
    constructor
    · intro hle
      rw [← hlast] at hle
      rw [winnowStep_enter hashes w hw i s mv hc hval hle, hlast]
    · intro hgt
      refine winnowStep_keep hashes w i s mv hc hval ?_
      rw [hlast]
      exact not_le.mpr hgt

/-- Witness for C5 (amended) at `hashes = [3, 1, 2]`, `w = 2`, `i = 0`,
starting from the initial loop state. -/
theorem C5_witness :
    ((⟨∅, -1, none⟩ : WinnowState).minPos < ((0 : Nat) : Int) →
      ∃ (m : Int) (p : Nat), p < 2 ∧
        winnowStep [3, 1, 2] 2 ⟨∅, -1, none⟩ 0 =
          { fps := insert (m, ((0 + p : Nat) : Int)) (⟨∅, -1, none⟩ : WinnowState).fps
            minPos := ((0 + p : Nat) : Int), minVal := some m } ∧
        [(3 : Int), 1, 2].getD (0 + p) 0 = m ∧
        (∀ x ∈ ([(3 : Int), 1, 2].drop 0).take 2, m ≤ x) ∧
        (∀ q, q < p → [(3 : Int), 1, 2].getD (0 + q) 0 ≠ m)) ∧
    (¬ (⟨∅, -1, none⟩ : WinnowState).minPos < ((0 : Nat) : Int) →
      ∀ mv, (⟨∅, -1, none⟩ : WinnowState).minVal = some mv →
      ([(3 : Int), 1, 2].getD (0 + 2 - 1) 0 ≤ mv →
        winnowStep [3, 1, 2] 2 ⟨∅, -1, none⟩ 0 =
          { fps := insert ([(3 : Int), 1, 2].getD (0 + 2 - 1) 0, ((0 + 2 - 1 : Nat) : Int))
              (⟨∅, -1, none⟩ : WinnowState).fps
            minPos := ((0 + 2 - 1 : Nat) : Int)
            minVal := some ([(3 : Int), 1, 2].getD (0 + 2 - 1) 0) }) ∧
      (mv < [(3 : Int), 1, 2].getD (0 + 2 - 1) 0 →
        winnowStep [3, 1, 2] 2 ⟨∅, -1, none⟩ 0 = ⟨∅, -1, none⟩)) :=
  C5_winnow_tiebreak [3, 1, 2] 2 (by decide) 0 (by decide) ⟨∅, -1, none⟩

/-! ### Claim C1: the winnowing detection guarantee -/

theorem get_kgrams_chain (text : List Char) (k : Int) :
    List.Chain' KgramChain (get_kgrams text k) := by
  rw [get_kgrams]
  split
  · exact List.chain'_nil
  · rename_i h
    push_neg at h
    obtain ⟨hne, hk, hle⟩ := h
    rw [List.chain'_map]
    have hkn : 0 < k.toNat := by omega
    have hknle : k.toNat ≤ text.length := by omega
    have hN : text.length - k.toNat + 1 = (text.length - k.toNat) + 1 := rfl
    rw [hN, List.chain'_range_succ]
    intro m hm
    refine ⟨text.getD (m + k.toNat) default, ?_⟩
    have h1 : ((text.drop m).take k.toNat).drop 1 = (text.drop (m + 1)).take (k.toNat - 1) := by
      rw [List.drop_take, List.drop_drop]
    rw [h1]
    have h2 : (text.drop (m + 1)).take k.toNat =
        (text.drop (m + 1)).take (k.toNat - 1) ++ ((text.drop (m + 1))[k.toNat - 1]?).toList := by
      rw [← List.take_succ]
      congr 1
      omega
    rw [h2, List.getElem?_drop,
      getElem?_eq_some_getD text (m + 1 + (k.toNat - 1)) (by omega) default]
    have h3 : m + 1 + (k.toNat - 1) = m + k.toNat := by omega
    rw [h3]
    rfl

theorem text_hashes_eq (text : List Char) (k : Int) (hk : 0 < k) :
    rolling_hash (get_kgrams text k) 256 101 =
      Except.ok ((get_kgrams text k).map (directHash 256 101)) := by
  by_cases hle : k ≤ (text.length : Int)
  · exact rolling_hash_agree _ _ _ k.toNat (by omega) (get_kgrams_mem_length text k)
      (get_kgrams_chain text k)
  · rw [get_kgrams, if_pos (Or.inr (Or.inr (by omega)))]
    rfl

theorem slice_of_shared (a s b : List Char) (kn j : Nat) (hj : j + kn ≤ s.length) :
    ((a ++ s ++ b).drop (a.length + j)).take kn = (s.drop j).take kn := by
  rw [List.append_assoc, List.drop_append, List.drop_append_eq_append_drop]
  have h0 : j - s.length = 0 := by omega
  rw [h0, List.drop_zero, List.take_append_of_le_length]
  rw [List.length_drop]
  omega

theorem kgram_window_of_shared (text s a b : List Char) (hsplit : text = a ++ s ++ b)
    (kn wn : Nat) (hk : 0 < kn) (hw : 0 < wn) (hs : kn + wn - 1 ≤ s.length) :
    (((get_kgrams text (kn : Int)).map (directHash 256 101)).drop a.length).take wn =
      (List.range wn).map (fun j => directHash 256 101 ((s.drop j).take kn)) := by
  have hlen_text : text.length = a.length + s.length + b.length := by
    rw [hsplit]
    simp
    omega
  have hkle : (kn : Int) ≤ (text.length : Int) := by
    have : kn ≤ s.length := by omega
    exact_mod_cast (by omega : kn ≤ text.length)
  have htn : ((kn : Int)).toNat = kn := by simp
  have hkg : get_kgrams text (kn : Int) =
      (List.range (text.length - kn + 1)).map (fun i => (text.drop i).take kn) := by
    rw [get_kgrams_eq_map text (kn : Int) (by exact_mod_cast hk) hkle, htn]
  rw [hkg, List.map_map]
  have hN : a.length + wn ≤ text.length - kn + 1 := by omega
  refine List.ext_getElem ?_ ?_
  · rw [List.length_take, List.length_drop, List.length_map, List.length_range,
      List.length_map, List.length_range]
    omega
  · intro j hj1 hj2
    have hjw : j < wn := by
      rw [List.length_map, List.length_range] at hj2
      exact hj2
    have hgetl :
        ((((List.range (text.length - kn + 1)).map
            ((directHash 256 101) ∘ fun i => (text.drop i).take kn)).drop a.length).take wn)[j] =
          directHash 256 101 ((text.drop (a.length + j)).take kn) := by
      rw [List.getElem_take, List.getElem_drop, List.getElem_map, List.getElem_range]
      rfl
    rw [hgetl, List.getElem_map, List.getElem_range]
    have hslice : (text.drop (a.length + j)).take kn = (s.drop j).take kn := by
      rw [hsplit]
      exact slice_of_shared a s b kn j (by omega)
    rw [hslice]

/-- C1.  Winnowing detection guarantee: for every pair of texts and every
`k > 0` and `w > 0`, if the two texts share a verbatim substring of length at
least `k + w - 1`, then the fingerprint sets produced by the pipeline
(k-gram extraction, rolling hash, `select_fingerprints` with window `w`)
have a non-empty intersection. -/
theorem C1_winnowing_guarantee (t1 t2 s : List Char) (k w : Nat)
    (hk : 0 < k) (hw : 0 < w) (hs : k + w - 1 ≤ s.length)
    (h1 : ∃ a b, t1 = a ++ s ++ b) (h2 : ∃ a b, t2 = a ++ s ++ b) :
    ∃ v, v ∈ text_fingerprints t1 (k : Int) (w : Int) ∧
      v ∈ text_fingerprints t2 (k : Int) (w : Int) := by
  obtain ⟨a1, b1, hsplit1⟩ := h1
  obtain ⟨a2, b2, hsplit2⟩ := h2
  have hkint : (0 : Int) < (k : Int) := by exact_mod_cast hk
  have htf1 : text_fingerprints t1 (k : Int) (w : Int) =
      select_fingerprints ((get_kgrams t1 (k : Int)).map (directHash 256 101)) (w : Int) := by
    unfold text_fingerprints
    rw [text_hashes_eq t1 (k : Int) hkint]
  have htf2 : text_fingerprints t2 (k : Int) (w : Int) =
      select_fingerprints ((get_kgrams t2 (k : Int)).map (directHash 256 101)) (w : Int) := by
    unfold text_fingerprints
    rw [text_hashes_eq t2 (k : Int) hkint]
  have hlen1 : t1.length = a1.length + s.length + b1.length := by
    rw [hsplit1]
    simp
    omega
  have hlen2 : t2.length = a2.length + s.length + b2.length := by
    rw [hsplit2]
    simp
    omega
  have hkle1 : (k : Int) ≤ (t1.length : Int) := by exact_mod_cast (by omega : k ≤ t1.length)
  have hkle2 : (k : Int) ≤ (t2.length : Int) := by exact_mod_cast (by omega : k ≤ t2.length)
  have hH1len : ((get_kgrams t1 (k : Int)).map (directHash 256 101)).length =
      t1.length - k + 1 := by
    rw [List.length_map, get_kgrams_length t1 (k : Int) hkint hkle1]
    simp
  have hH2len : ((get_kgrams t2 (k : Int)).map (directHash 256 101)).length =
      t2.length - k + 1 := by
    rw [List.length_map, get_kgrams_length t2 (k : Int) hkint hkle2]
    simp
  have hbound1 : a1.length + w ≤ ((get_kgrams t1 (k : Int)).map (directHash 256 101)).length := by
    rw [hH1len]
    omega
  have hbound2 : a2.length + w ≤ ((get_kgrams t2 (k : Int)).map (directHash 256 101)).length := by
    rw [hH2len]
    omega
  have hsel1 := window_min_selected _ w hw a1.length hbound1
  have hsel2 := window_min_selected _ w hw a2.length hbound2
  rw [kgram_window_of_shared t1 s a1 b1 hsplit1 k w hk hw hs] at hsel1
  rw [kgram_window_of_shared t2 s a2 b2 hsplit2 k w hk hw hs] at hsel2
  refine ⟨pyMin ((List.range w).map (fun j => directHash 256 101 ((s.drop j).take k))), ?_, ?_⟩
  · rw [htf1]
    exact hsel1
  · rw [htf2]
    exact hsel2

/-- Witness for C1 at `t1 = t2 = "a"`, `k = w = 1`, shared substring `"a"`. -/
theorem C1_witness :
    ∃ v, v ∈ text_fingerprints ['a'] ((1 : Nat) : Int) ((1 : Nat) : Int) ∧
      v ∈ text_fingerprints ['a'] ((1 : Nat) : Int) ((1 : Nat) : Int) :=
  C1_winnowing_guarantee ['a'] ['a'] ['a'] 1 1 (by decide) (by decide) (by decide)
    ⟨[], [], rfl⟩ ⟨[], [], rfl⟩

/-! ### The similarity comparator (`plagiarism.py`, claim C9)

The corpus is the `all_files` list of `(identifier, filename, fingerprints)`
triples; Python's float arithmetic (`intersection / union`, the threshold
comparison, and `round(., 4)` which rounds half to even) is modelled exactly
over `ℚ`. -/

/-- A similarity record appended by `compare_all_submissions`
(`plagiarism.py`): `file_1`/`file_2` are the `f"{id}/{fname}"` strings and
`similarity` the Jaccard score rounded to 4 decimal places. -/
structure SimRecord where
  file_1 : String
  file_2 : String
  similarity : ℚ
deriving DecidableEq

/-- Jaccard similarity `len(fp1 & fp2) / len(fp1 | fp2)` of two fingerprint
sets. -/
def jaccard (A B : Finset Int) : ℚ := ((A ∩ B).card : ℚ) / ((A ∪ B).card : ℚ)

/-- Python's `round` to the nearest integer (banker's rounding: ties go to
the even integer). -/
def pyRound0 (x : ℚ) : Int :=
  if x - Int.floor x < 1 / 2 then Int.floor x
  else if 1 / 2 < x - Int.floor x then Int.floor x + 1
  else if Even (Int.floor x) then Int.floor x else Int.floor x + 1

/-- `round(jaccard, 4)` from `compare_all_submissions`. -/
def round4 (x : ℚ) : ℚ := (pyRound0 (x * 10000) : ℚ) / 10000

/-- Embedding of `PlagiarismDetector.compare_all_submissions`
(`plagiarism.py`): nested index loops `i` and `j in range(i+1, len)` over
`all_files`, skipping pairs where either fingerprint set is falsy or the
union is empty, and appending a record when the Jaccard similarity reaches
the threshold. -/
def compare_all_submissions (files : List (String × String × Finset Int))
    (threshold : ℚ) : List SimRecord :=
  (List.range files.length).flatMap (fun i =>
    (List.range' (i + 1) (files.length - (i + 1))).filterMap (fun j =>
      let f1 := files.getD i default
      let f2 := files.getD j default
      if f1.2.2 = ∅ ∨ f2.2.2 = ∅ then none
      else if (f1.2.2 ∪ f2.2.2).card = 0 then none
      else if threshold ≤ jaccard f1.2.2 f2.2.2 then
        some ⟨f1.1 ++ "/" ++ f1.2.1, f2.1 ++ "/" ++ f2.2.1,
          round4 (jaccard f1.2.2 f2.2.2)⟩
      else none))

/-- All index pairs `i < j` of an `n`-element corpus, in scan order. -/
def indexPairs (n : Nat) : List (Nat × Nat) :=
  (List.range n).flatMap (fun i =>
    (List.range' (i + 1) (n - (i + 1))).map (fun j => (i, j)))

/-- The record the comparator emits for index pair `(i, j)`. -/
def recordOf (files : List (String × String × Finset Int)) (p : Nat × Nat) : SimRecord :=
  ⟨(files.getD p.1 default).1 ++ "/" ++ (files.getD p.1 default).2.1,
    (files.getD p.2 default).1 ++ "/" ++ (files.getD p.2 default).2.1,
    round4 (jaccard (files.getD p.1 default).2.2 (files.getD p.2 default).2.2)⟩

/-- The qualification condition of the claim: both fingerprint sets are
non-empty and the Jaccard similarity is at least the threshold. -/
def qualifies (files : List (String × String × Finset Int)) (threshold : ℚ)
    (p : Nat × Nat) : Prop :=
  (files.getD p.1 default).2.2 ≠ ∅ ∧ (files.getD p.2 default).2.2 ≠ ∅ ∧
    threshold ≤ jaccard (files.getD p.1 default).2.2 (files.getD p.2 default).2.2

instance (files : List (String × String × Finset Int)) (threshold : ℚ) :
    DecidablePred (qualifies files threshold) := fun _ =>
  inferInstanceAs (Decidable (_ ∧ _ ∧ _))

theorem flatMap_congr {α β : Type} (l : List α) (f g : α → List β)
    (h : ∀ a ∈ l, f a = g a) : l.flatMap f = l.flatMap g := by
  induction l with
  | nil => rfl
  | cons a l ih =>
    rw [List.flatMap_cons, List.flatMap_cons, h a (List.mem_cons_self _ _),
      ih (fun a ha => h a (List.mem_cons_of_mem _ ha))]

theorem filter_flatMap {α β : Type} (l : List α) (F : α → List β) (p : β → Bool) :
    (l.flatMap F).filter p = l.flatMap (fun a => (F a).filter p) := by
  induction l with
  | nil => rfl
  | cons a l ih => rw [List.flatMap_cons, List.flatMap_cons, List.filter_append, ih]

theorem map_flatMap {α β γ : Type} (l : List α) (F : α → List β) (g : β → γ) :
    (l.flatMap F).map g = l.flatMap (fun a => (F a).map g) := by
  induction l with
  | nil => rfl
  | cons a l ih => rw [List.flatMap_cons, List.flatMap_cons, List.map_append, ih]

theorem filterMap_eq_filter_map {α β : Type} (l : List α) (f : α → Option β)
    (p : α → Bool) (g : α → β)
    (h : ∀ a ∈ l, f a = if p a then some (g a) else none) :
    l.filterMap f = (l.filter p).map g := by
  induction l with
  | nil => rfl
  | cons a l ih =>
    rw [List.filterMap_cons, List.filter_cons, h a (List.mem_cons_self _ _)]
    by_cases hp : p a
    · rw [if_pos hp, if_pos hp, List.map_cons,
        ih (fun a ha => h a (List.mem_cons_of_mem _ ha))]
    · rw [if_neg hp, if_neg hp, ih (fun a ha => h a (List.mem_cons_of_mem _ ha))]

theorem nodup_flatMap_of_disjoint {α β : Type} (l : List α) (f : α → List β)
    (hl : l.Nodup) (hf : ∀ a ∈ l, (f a).Nodup)
    (hdisj : ∀ a ∈ l, ∀ b ∈ l, ∀ x, x ∈ f a → x ∈ f b → a = b) :
    (l.flatMap f).Nodup := by
  induction l with
  | nil => exact List.nodup_nil
  | cons a l ih =>
    rw [List.flatMap_cons]
    refine List.Nodup.append (hf a (List.mem_cons_self _ _)) ?_ ?_
    · exact ih (List.nodup_cons.mp hl).2
        (fun b hb => hf b (List.mem_cons_of_mem _ hb))
        (fun b hb c hc => hdisj b (List.mem_cons_of_mem _ hb) c (List.mem_cons_of_mem _ hc))
    · intro x hxa hxl
      obtain ⟨b, hb, hxb⟩ := List.mem_flatMap.mp hxl
      have hab : a = b := hdisj a (List.mem_cons_self _ _) b (List.mem_cons_of_mem _ hb) x hxa hxb
      exact (List.nodup_cons.mp hl).1 (hab ▸ hb)

theorem indexPairs_mem (n : Nat) (p : Nat × Nat) :
    p ∈ indexPairs n ↔ p.1 < p.2 ∧ p.2 < n := by
  unfold indexPairs
  rw [List.mem_flatMap]
  constructor
  · rintro ⟨i, hi, hp⟩
    obtain ⟨j, hj, rfl⟩ := List.mem_map.mp hp
    rw [List.mem_range] at hi
    rw [List.mem_range'_1] at hj
    exact ⟨by omega, by omega⟩
  · rintro ⟨h1, h2⟩
    refine ⟨p.1, List.mem_range.mpr (by omega), List.mem_map.mpr ⟨p.2, ?_, rfl⟩⟩
    rw [List.mem_range'_1]
    omega

theorem indexPairs_nodup (n : Nat) : (indexPairs n).Nodup := by
  unfold indexPairs
  refine nodup_flatMap_of_disjoint _ _ (List.nodup_range n) ?_ ?_
  · intro i _
    exact List.Nodup.map (fun a b hab => (Prod.mk.injEq _ _ _ _).mp hab |>.2)
      (List.nodup_range' ..)
  · intro i _ j _ x hxi hxj
    obtain ⟨a, _, ha⟩ := List.mem_map.mp hxi
    obtain ⟨b, _, hb⟩ := List.mem_map.mp hxj
    rw [← hb] at ha
    exact ((Prod.mk.injEq _ _ _ _).mp ha).1

/-- C9.  The comparator produces exactly one record per scan-ordered index
pair `i < j` whose two fingerprint sets are non-empty and whose Jaccard
similarity reaches the threshold; the scanned pair list is duplicate-free,
contains only pairs `i < j` of corpus indices, and contains every such pair
— so each unordered pair of distinct files is evaluated exactly once and
yields at most one record.  (Proved for an arbitrary corpus list, which
subsumes every corpus map.) -/
theorem C9_compare_all_semantics (files : List (String × String × Finset Int))
    (threshold : ℚ) :
    compare_all_submissions files threshold =
      ((indexPairs files.length).filter
        (fun p => qualifies files threshold p)).map (recordOf files) ∧
    (indexPairs files.length).Nodup ∧
    (∀ p ∈ indexPairs files.length, p.1 < p.2 ∧ p.2 < files.length) ∧
    (∀ i j, i < j → j < files.length → (i, j) ∈ indexPairs files.length) := by
  refine ⟨?_, indexPairs_nodup files.length,
    fun p hp => (indexPairs_mem files.length p).mp hp,
    fun i j h1 h2 => (indexPairs_mem files.length (i, j)).mpr ⟨h1, h2⟩⟩
  unfold compare_all_submissions indexPairs
  rw [filter_flatMap, map_flatMap]
  refine flatMap_congr _ _ _ ?_
  intro i _
  rw [List.filter_map, List.map_map]
  refine filterMap_eq_filter_map _ _ _ _ ?_
  intro j _
  simp only [Function.comp]
  by_cases hq : qualifies files threshold (i, j)
  · obtain ⟨h1, h2, h3⟩ := hq
    have hcard : ¬ ((files.getD i default).2.2 ∪ (files.getD j default).2.2).card = 0 := by
      intro hc
      rw [Finset.card_eq_zero, Finset.union_eq_empty] at hc
      exact h1 hc.1
    rw [if_neg (show ¬ ((files.getD i default).2.2 = ∅ ∨ (files.getD j default).2.2 = ∅) by
        tauto),
      if_neg hcard, if_pos h3, if_pos (decide_eq_true ⟨h1, h2, h3⟩)]
    rfl
  · have hqd : ¬ (decide (qualifies files threshold (i, j)) = true) := fun h =>
      hq (of_decide_eq_true h)
    rw [if_neg hqd]
    by_cases h1 : (files.getD i default).2.2 = ∅
    · rw [if_pos (Or.inl h1)]
    · by_cases h2 : (files.getD j default).2.2 = ∅
      · rw [if_pos (Or.inr h2)]
      · have hcard : ¬ ((files.getD i default).2.2 ∪ (files.getD j default).2.2).card = 0 := by
          intro hc
          rw [Finset.card_eq_zero, Finset.union_eq_empty] at hc
          exact h1 hc.1
        have h3 : ¬ threshold ≤
            jaccard (files.getD i default).2.2 (files.getD j default).2.2 := by
          intro h3
          exact hq ⟨h1, h2, h3⟩
        rw [if_neg (by tauto), if_neg hcard, if_neg h3]

/-! ### The per-language normalizers (`Normalizers/`, claims C6–C8)

Each Python `re.sub` call of the normalizers is embedded as a direct
left-to-right scanner over `List Char`: at every position a matcher either
recognizes a match of the pattern (returning the input after the match, where
the scan resumes, as `re.sub` does) or the scan keeps one character and moves
on.  `\s` is Lean's `Char.isWhitespace`; the identifier classes are the ASCII
ranges `[a-zA-Z0-9_]` written in the source patterns. -/

/-- Generic `re.sub(pattern, repl, text)` scanner, structurally recursive on
a fuel argument (the wrapper `subScan` passes the text length, which always
suffices because every match consumes at least one character). -/
def subScanF (f : List Char → Option (List Char)) (repl : List Char) :
    Nat → List Char → List Char
  | 0, _ => []
  | _, [] => []
  | fuel + 1, c :: rest =>
    match f (c :: rest) with
    | some r => repl ++ subScanF f repl fuel r
    | none => c :: subScanF f repl fuel rest

/-- `re.sub(pattern, repl, text)`: at each position the matcher `f` either
recognizes a match (returning the input after it, where the scan resumes) or
the scan keeps one character. -/
def subScan (f : List Char → Option (List Char)) (repl : List Char)
    (l : List Char) : List Char :=
  subScanF f repl l.length l

/-- Matcher for `'#.*'` (python step 1): `#` up to, and excluding, the next
newline (`.` does not match a newline). -/
def tryHashComment : List Char → Option (List Char)
  | [] => none
  | c :: rest =>
    if c = '#' then some (rest.dropWhile (fun c => c != '\n')) else none

theorem tryHashComment_length : ∀ l r, tryHashComment l = some r → r.length < l.length := by
  intro l r h
  cases l with
  | nil => simp [tryHashComment] at h
  | cons c rest =>
    rw [tryHashComment] at h
    split_ifs at h
    have := (List.dropWhile_suffix (l := rest) (fun c => c != '\n')).length_le
    obtain rfl := Option.some.injEq _ _ ▸ h.symm
    simp only [List.length_cons]
    omega

/-- Matcher for `'//.*'` (cpp step 1). -/
def trySlashComment : List Char → Option (List Char)
  | c1 :: c2 :: rest =>
    if c1 = '/' ∧ c2 = '/' then some (rest.dropWhile (fun c => c != '\n')) else none
  | _ => none

theorem trySlashComment_length : ∀ l r, trySlashComment l = some r → r.length < l.length := by
  intro l r h
  match l with
  | [] => simp [trySlashComment] at h
  | [c] => simp [trySlashComment] at h
  | c1 :: c2 :: rest =>
    rw [trySlashComment] at h
    split_ifs at h
    have := (List.dropWhile_suffix (l := rest) (fun c => c != '\n')).length_le
    obtain rfl := Option.some.injEq _ _ ▸ h.symm
    simp only [List.length_cons]
    omega

/-- The lazy search for the closing `*/` of `'/\*.*?\*/'` with `re.DOTALL`
(cpp step 1): the earliest `*/` closes the comment. -/
def dropUntilStarSlash : List Char → Option (List Char)
  | [] => none
  | c1 :: rest =>
    if c1 = '*' ∧ rest.take 1 = ['/'] then some (rest.drop 1)
    else dropUntilStarSlash rest

theorem dropUntilStarSlash_length :
    ∀ l r, dropUntilStarSlash l = some r → r.length < l.length := by
  intro l
  induction l with
  | nil => intro r h; simp [dropUntilStarSlash] at h
  | cons c1 rest ih =>
    intro r h
    rw [dropUntilStarSlash] at h
    split_ifs at h
    · obtain rfl := Option.some.injEq _ _ ▸ h.symm
      have := List.length_drop 1 rest
      simp only [List.length_cons]
      omega
    · have := ih r h
      simp only [List.length_cons]
      omega

/-- Matcher for `'/\*.*?\*/'` with `re.DOTALL` (cpp step 1). -/
def tryBlockComment : List Char → Option (List Char)
  | c1 :: c2 :: rest =>
    if c1 = '/' ∧ c2 = '*' then dropUntilStarSlash rest else none
  | _ => none

theorem tryBlockComment_length : ∀ l r, tryBlockComment l = some r → r.length < l.length := by
  intro l r h
  match l with
  | [] => simp [tryBlockComment] at h
  | [c] => simp [tryBlockComment] at h
  | c1 :: c2 :: rest =>
    rw [tryBlockComment] at h
    split_ifs at h
    have := dropUntilStarSlash_length rest r h
    simp only [List.length_cons]
    omega

/-- The lazy search for the closing triple quote of
`'"""(?:.|\n)*?"""'` / `"'''(?:.|\n)*?'''"` (python step 1):
the earliest closing triple quote ends the match. -/
def dropUntilTriple (q : Char) : List Char → Option (List Char)
  | [] => none
  | c :: rest =>
    if (c :: rest).take 3 = [q, q, q] then some ((c :: rest).drop 3)
    else dropUntilTriple q rest

theorem dropUntilTriple_length (q : Char) :
    ∀ l r, dropUntilTriple q l = some r → r.length < l.length := by
  intro l
  induction l with
  | nil => intro r h; simp [dropUntilTriple] at h
  | cons c rest ih =>
    intro r h
    rw [dropUntilTriple] at h
    split_ifs at h with htake
    · obtain rfl := Option.some.injEq _ _ ▸ h.symm
      have hh := congrArg List.length htake
      rw [List.length_take] at hh
      rw [List.length_drop]
      simp only [List.length_cons, List.length_nil] at hh ⊢
      omega
    · have := ih r h
      simp only [List.length_cons]
      omega

/-- Matcher for the triple-quoted-string pattern of python step 1
(`'"""..."""'` tried before `"'''...'''"`, both lazy). -/
def tryTriple (l : List Char) : Option (List Char) :=
  if l.take 3 = ['"', '"', '"'] then dropUntilTriple '"' (l.drop 3)
  else if l.take 3 = ['\'', '\'', '\''] then dropUntilTriple '\'' (l.drop 3)
  else none

theorem tryTriple_length : ∀ l r, tryTriple l = some r → r.length < l.length := by
  intro l r h
  rw [tryTriple] at h
  split_ifs at h with h1 h2
  · have := dropUntilTriple_length '"' (l.drop 3) r h
    rw [List.length_drop] at this
    omega
  · have := dropUntilTriple_length '\'' (l.drop 3) r h
    rw [List.length_drop] at this
    omega

/-- The body-and-closing-quote part of the string-literal patterns
`'(?:\\.|[^q\\])*q'`: an unescaped `q` closes the literal, a backslash
escapes any character except a newline (`.` does not match `\n`), and any
other character — including a newline, matched by the negated class — is
consumed. -/
def scanBody (q : Char) : List Char → Option (List Char)
  | [] => none
  | [c] => if c = q then some [] else none
  | c :: c2 :: rest =>
    if c = q then some (c2 :: rest)
    else if c = '\\' then
      (if c2 = '\n' then none else scanBody q rest)
    else scanBody q (c2 :: rest)

theorem scanBody_length_aux (q : Char) :
    ∀ (n : Nat) (l : List Char), l.length ≤ n →
      ∀ r, scanBody q l = some r → r.length < l.length := by
  intro n
  induction n with
  | zero =>
    intro l hl r h
    have hnil : l = [] := List.eq_nil_of_length_eq_zero (by omega)
    subst hnil
    simp [scanBody] at h
  | succ n ih =>
    intro l hl r h
    match l with
    | [] => simp [scanBody] at h
    | [c] =>
      rw [scanBody] at h
      split_ifs at h
      obtain rfl := Option.some.injEq _ _ ▸ h.symm
      simp
    | c :: c2 :: rest =>
      rw [scanBody] at h
      split_ifs at h
      · obtain rfl := Option.some.injEq _ _ ▸ h.symm
        simp
      · have := ih rest (by simp only [List.length_cons] at hl; omega) r h
        simp only [List.length_cons]
        omega
      · have := ih (c2 :: rest) (by simp only [List.length_cons] at hl ⊢; omega) r h
        simp only [List.length_cons] at this ⊢
        omega

theorem scanBody_length (q : Char) :
    ∀ l r, scanBody q l = some r → r.length < l.length :=
  fun l => scanBody_length_aux q l.length l le_rfl

/-- An opening quote `q` followed by a literal body and closing quote. -/
def tryQuoted (q : Char) : List Char → Option (List Char)
  | [] => none
  | c :: rest => if c = q then scanBody q rest else none

theorem tryQuoted_length (q : Char) :
    ∀ l r, tryQuoted q l = some r → r.length < l.length := by
  intro l r h
  cases l with
  | nil => simp [tryQuoted] at h
  | cons c rest =>
    rw [tryQuoted] at h
    split_ifs at h
    have := scanBody_length q rest r h
    simp only [List.length_cons]
    omega

/-- Matcher for the python string-literal patterns
`r'r?f?"(?:\\.|[^"\\])*"'` and `r"r?f?'(?:\\.|[^'\\])*'"` (python step 2):
the optional `r` and `f` prefixes are part of the match. -/
def tryPyString (q : Char) (l : List Char) : Option (List Char) :=
  match l with
  | c1 :: c2 :: rest =>
    if c1 = 'r' ∧ c2 = 'f' then tryQuoted q rest
    else if c1 = 'r' ∨ c1 = 'f' then tryQuoted q (c2 :: rest)
    else tryQuoted q (c1 :: c2 :: rest)
  | _ => tryQuoted q l

theorem tryPyString_length (q : Char) :
    ∀ l r, tryPyString q l = some r → r.length < l.length := by
  intro l r h
  match l with
  | [] => exact tryQuoted_length q _ r h
  | [c] => exact tryQuoted_length q _ r h
  | c1 :: c2 :: rest =>
    rw [tryPyString] at h
    split_ifs at h
    · have := tryQuoted_length q rest r h
      simp only [List.length_cons]
      omega
    · have := tryQuoted_length q (c2 :: rest) r h
      simp only [List.length_cons] at *
      omega
    · exact tryQuoted_length q _ r h

/-- Matcher for `r"'(\\.|.)'"` (cpp step 2): a quote, one possibly escaped
character (never a newline), and a closing quote.  The regex engine first
tries `\\.` with the closing quote one character later, then backtracks to
`.` matching the backslash itself. -/
def tryCharLit : List Char → Option (List Char)
  | c0 :: c1 :: c2 :: rest =>
    if c0 = '\'' then
      if c1 = '\\' then
        if ¬ c2 = '\n' ∧ rest.take 1 = ['\''] then some (rest.drop 1)
        else if c2 = '\'' then some rest
        else none
      else if ¬ c1 = '\n' ∧ c2 = '\'' then some rest
      else none
    else none
  | _ => none

theorem tryCharLit_length : ∀ l r, tryCharLit l = some r → r.length < l.length := by
  intro l r h
  match l with
  | [] => simp [tryCharLit] at h
  | [c] => simp [tryCharLit] at h
  | [c, d] => simp [tryCharLit] at h
  | c0 :: c1 :: c2 :: rest =>
    rw [tryCharLit] at h
    split_ifs at h <;>
      first
      | (obtain rfl := Option.some.injEq _ _ ▸ h.symm
         have := List.length_drop 1 rest
         simp only [List.length_cons]
         omega)
      | (obtain rfl := Option.some.injEq _ _ ▸ h.symm
         simp only [List.length_cons]
         omega)

/-- `text.replace(sym, f" {sym} ")` for one symbol character (step 3 of both
normalizers). -/
def replaceCharSpaced (sym : Char) (l : List Char) : List Char :=
  l.flatMap (fun c => if c = sym then [' ', sym, ' '] else [c])

/-- The `for sym in symbols: text = text.replace(sym, f" {sym} ")` loop. -/
def spaceSymbols (syms : List Char) (l : List Char) : List Char :=
  syms.foldl (fun t s => replaceCharSpaced s t) l

/-- Fuel-indexed form of `re.sub(r'\s+', ' ', text)`. -/
def collapseWsF : Nat → List Char → List Char
  | 0, _ => []
  | _, [] => []
  | fuel + 1, c :: rest =>
    if c.isWhitespace then ' ' :: collapseWsF fuel (rest.dropWhile Char.isWhitespace)
    else c :: collapseWsF fuel rest

/-- `re.sub(r'\s+', ' ', text)` (step 4 of both normalizers): every maximal
whitespace run becomes one space. -/
def collapseWs (l : List Char) : List Char := collapseWsF l.length l

/-- Python's `str.strip()` (cpp step 4). -/
def pyStrip (l : List Char) : List Char :=
  ((l.dropWhile Char.isWhitespace).reverse.dropWhile Char.isWhitespace).reverse

/-- `[A-Z_]`, the first character of a macro name in cpp step 5. -/
def isMacroStart (c : Char) : Bool := c.isUpper || c == '_'

/-- `[A-Z0-9_]`, the remaining characters of a macro name. -/
def isMacroChar (c : Char) : Bool := isMacroStart c || c.isDigit

/-- Matcher for `re.sub(r'#define\s+([A-Z_][A-Z0-9_]*)', '#define _MACRO', text)`
(cpp step 5): the literal `#define`, at least one whitespace character, and a
greedy macro name. -/
def tryDefineMatch (l : List Char) : Option (List Char) :=
  if l.take 7 = "#define".toList then
    if (l.drop 7).takeWhile Char.isWhitespace = [] then none
    else
      match (l.drop 7).dropWhile Char.isWhitespace with
      | [] => none
      | c :: rest3 =>
        if isMacroStart c then some (rest3.dropWhile isMacroChar) else none
  else none

theorem tryDefineMatch_length : ∀ l r, tryDefineMatch l = some r → r.length < l.length := by
  intro l r h
  rw [tryDefineMatch] at h
  split_ifs at h with h1 h2
  have h7 : 7 ≤ l.length := by
    have hh := congrArg List.length h1
    rw [List.length_take] at hh
    simp only [String.toList] at hh
    simp at hh
    omega
  match hdw : (l.drop 7).dropWhile Char.isWhitespace, h with
  | c :: rest3, h =>
    simp only at h
    split_ifs at h
    obtain rfl := Option.some.injEq _ _ ▸ h.symm
    have hr3 : (rest3.dropWhile isMacroChar).length ≤ rest3.length :=
      (List.dropWhile_suffix isMacroChar).length_le
    have hdrop : (c :: rest3).length ≤ (l.drop 7).length := by
      rw [← hdw]
      exact (List.dropWhile_suffix Char.isWhitespace).length_le
    rw [List.length_drop] at hdrop
    simp only [List.length_cons] at hdrop
    omega

/-- `[a-zA-Z0-9_]`, the word characters of the identifier patterns. -/
def isWordChar (c : Char) : Bool := c.isAlphanum || c == '_'

/-- `[a-zA-Z_]`, the leading character of the identifier pattern
`\b[a-zA-Z_][a-zA-Z0-9_]*\b`. -/
def isIdentStart (c : Char) : Bool := c.isAlpha || c == '_'

/-- The maximal word-character runs of a text.  `\b` boundaries lie exactly
at the transitions between word and non-word characters, so the matches of
`\b[a-zA-Z_][a-zA-Z0-9_]*\b` (and of `\b{ident}\b` for a word token `ident`)
are exactly the complete runs (that start with a letter or underscore,
respectively that equal `ident`). -/
def wordRunsF : Nat → List Char → List (List Char)
  | 0, _ => []
  | _, [] => []
  | fuel + 1, c :: rest =>
    if isWordChar c then
      (c :: rest.takeWhile isWordChar) :: wordRunsF fuel (rest.dropWhile isWordChar)
    else wordRunsF fuel rest

def wordRuns (l : List Char) : List (List Char) := wordRunsF l.length l

/-- Fuel-indexed form of `mapRuns`. -/
def mapRunsF (f : List Char → List Char) : Nat → List Char → List Char
  | 0, _ => []
  | _, [] => []
  | fuel + 1, c :: rest =>
    if isWordChar c then
      f (c :: rest.takeWhile isWordChar) ++ mapRunsF f fuel (rest.dropWhile isWordChar)
    else c :: mapRunsF f fuel rest

/-- Rewrite every maximal word run of a text through `f`, leaving the
non-word characters in place. -/
def mapRuns (f : List Char → List Char) (l : List Char) : List Char :=
  mapRunsF f l.length l

/-- `re.sub(rf'\b{re.escape(ident)}\b', repl, text)` for a word token
`ident`: replace every complete word run equal to `ident`. -/
def replaceWord (ident repl : List Char) (text : List Char) : List Char :=
  mapRuns (fun r => if r = ident then repl else r) text

/-- `re.findall(r'\b[a-zA-Z_][a-zA-Z0-9_]*\b', text)`: the maximal word runs
that start with a letter or underscore. -/
def foundIdents (text : List Char) : List (List Char) :=
  (wordRuns text).filter (fun r =>
    match r with
    | [] => false
    | c :: _ => isIdentStart c)

/-- Fuel-indexed decimal-digit writer (`n < fuel` always suffices). -/
def natDigitsF : Nat → Nat → List Char
  | 0, _ => []
  | fuel + 1, n =>
    if n < 10 then [Char.ofNat (48 + n)]
    else natDigitsF fuel (n / 10) ++ [Char.ofNat (48 + n % 10)]

/-- The decimal digits of `n`, as written by Python's `f"_v{var_id}"`. -/
def natDigits (n : Nat) : List Char := natDigitsF (n + 1) n

/-- The placeholder token `f"_v{var_id}"`. -/
def placeholder (n : Nat) : List Char := '_' :: 'v' :: natDigits n

/-- Python's `str.isdigit` on an ASCII token. -/
def pyIsDigit (s : List Char) : Bool := !s.isEmpty && s.all Char.isDigit

/-- The identifier-renaming loop (python step 5 / cpp step 6): walk the found
identifiers in order; skip protected tokens and digit-only tokens; assign the
next `_v{var_id}` placeholder on first sight; substitute every whole-word
occurrence of the identifier in the running text on every visit. -/
def renameLoop (reservedToks : List (List Char)) :
    List (List Char) → List (List Char × Nat) → Nat → List Char →
    List (List Char × Nat) × Nat × List Char
  | [], seen, varId, text => (seen, varId, text)
  | ident :: rest, seen, varId, text =>
    if ident ∈ reservedToks ∨ pyIsDigit ident then
      renameLoop reservedToks rest seen varId text
    else
      match seen.lookup ident with
      | some n =>
        renameLoop reservedToks rest seen varId (replaceWord ident (placeholder n) text)
      | none =>
        renameLoop reservedToks rest (seen ++ [(ident, varId)]) (varId + 1)
          (replaceWord ident (placeholder varId) text)

/-- The renaming step applied to a whole text: find the identifiers, then run
the loop with an empty `seen` map and `var_id = 1`. -/
def renameIdentifiers (reservedToks : List (List Char)) (text : List Char) : List Char :=
  (renameLoop reservedToks (foundIdents text) [] 1 text).2.2

/-- Python's `keyword.kwlist` (modelled from CPython 3.10; the claims proved
here do not depend on the exact contents). -/
def pythonKeywords : List String :=
  ["False", "None", "True", "and", "as", "assert", "async", "await", "break",
   "class", "continue", "def", "del", "elif", "else", "except", "finally",
   "for", "from", "global", "if", "in", "is", "lambda", "nonlocal",
   "not", "or", "pass", "raise", "return", "try", "while", "with", "yield",
   "import"]

/-- Python's `dir(builtins)` (modelled from CPython 3.10; the claims proved
here do not depend on the exact contents). -/
def pythonBuiltins : List String :=
  ["ArithmeticError", "AssertionError", "AttributeError", "BaseException",
   "BlockingIOError", "BrokenPipeError", "BufferError", "BytesWarning",
   "ChildProcessError", "ConnectionAbortedError", "ConnectionError",
   "ConnectionRefusedError", "ConnectionResetError", "DeprecationWarning",
   "EOFError", "Ellipsis", "EncodingWarning", "EnvironmentError",
   "FileExistsError", "FileNotFoundError", "FloatingPointError",
   "FutureWarning", "GeneratorExit", "IOError", "ImportError",
   "ImportWarning", "IndentationError", "IndexError", "InterruptedError",
   "IsADirectoryError", "KeyError", "KeyboardInterrupt", "LookupError",
   "MemoryError", "ModuleNotFoundError", "NameError", "NotADirectoryError",
   "NotImplemented", "NotImplementedError", "OSError", "OverflowError",
   "PendingDeprecationWarning", "PermissionError", "ProcessLookupError",
   "RecursionError", "ReferenceError", "ResourceWarning", "RuntimeError",
   "RuntimeWarning", "StopAsyncIteration", "StopIteration", "SyntaxError",
   "SyntaxWarning", "SystemError", "SystemExit", "TabError", "TimeoutError",
   "TypeError", "UnboundLocalError", "UnicodeDecodeError",
   "UnicodeEncodeError", "UnicodeError", "UnicodeTranslateError",
   "UnicodeWarning", "UserWarning", "ValueError", "Warning",
   "ZeroDivisionError", "abs", "aiter", "all", "anext", "any", "ascii",
   "bin", "bool", "breakpoint", "bytearray", "bytes", "callable", "chr",
   "classmethod", "compile", "complex", "copyright", "credits", "delattr",
   "dict", "dir", "divmod", "enumerate", "eval", "exec", "exit", "filter",
   "float", "format", "frozenset", "getattr", "globals", "hasattr", "hash",
   "help", "hex", "id", "input", "int", "isinstance", "issubclass", "iter",
   "len", "license", "list", "locals", "map", "max", "memoryview", "min",
   "next", "object", "oct", "open", "ord", "pow", "print", "property",
   "quit", "range", "repr", "reversed", "round", "set", "setattr", "slice",
   "sorted", "staticmethod", "str", "sum", "super", "tuple", "type", "vars",
   "zip", "__build_class__", "__builtins__", "__debug__", "__doc__",
   "__import__", "__loader__", "__name__", "__package__", "__spec__",
   "False", "None", "True"]

/-- `protected = set(keyword.kwlist + dir(builtins)) | {"_STR"}`
(python step 5). -/
def pythonProtected : List (List Char) :=
  (pythonKeywords ++ pythonBuiltins).map String.toList ++ ["_STR".toList]

/-- The `cpp_keywords` set of `cpp_normalizer.py`. -/
def cppKeywords : List String :=
  ["auto", "break", "case", "char", "const", "continue", "default", "do",
   "double", "else", "enum", "extern", "float", "for", "goto", "if",
   "inline", "int", "long", "register", "restrict", "return", "short",
   "signed", "sizeof", "static", "struct", "switch", "typedef", "union",
   "unsigned", "void", "volatile", "while", "class", "delete", "new",
   "private", "protected", "public", "template", "this", "throw", "try",
   "catch", "using", "namespace"]

/-- The skipped tokens of cpp step 6: the keywords plus the placeholder
tokens `_STR`, `_C`, `_MACRO`. -/
def cppProtected : List (List Char) :=
  cppKeywords.map String.toList ++ ["_STR".toList, "_C".toList, "_MACRO".toList]

/-- The symbol string of python step 3. -/
def pythonSymbols : List Char := "()\x7b\x7d[]:,=+-*/<>!".toList

/-- The symbol string of cpp step 3. -/
def cppSymbols : List Char := "()\x7b\x7d;=+-*/<>&|!".toList

/-- Steps 1–4 of `PythonNormalizer.normalize`: comment removal, string
normalization, symbol spacing, whitespace collapsing — everything before the
identifier renaming. -/
def preRenamePython (text : List Char) : List Char :=
  collapseWs
    (spaceSymbols pythonSymbols
      (subScan (tryPyString '\'') "'_STR'".toList
        (subScan (tryPyString '"') "\"_STR\"".toList
          (subScan tryTriple []
            (subScan tryHashComment [] text)))))

/-- Embedding of `PythonNormalizer.normalize` (`python_normalizer.py`). -/
def normalize_python (text : List Char) : List Char :=
  renameIdentifiers pythonProtected (preRenamePython text)

/-- Steps 1–5 of `CppNormalizer.normalize`: comment removal, char/string
literal normalization, symbol spacing, whitespace collapsing and stripping,
`#define` macro-name normalization — everything before the identifier
renaming. -/
def preRenameCpp (text : List Char) : List Char :=
  subScan tryDefineMatch "#define _MACRO".toList
    (pyStrip
      (collapseWs
        (spaceSymbols cppSymbols
          (subScan (tryQuoted '"') "\"_STR\"".toList
            (subScan tryCharLit "'_C'".toList
              (subScan tryBlockComment []
                (subScan trySlashComment [] text)))))))

/-- Embedding of `CppNormalizer.normalize` (`cpp_normalizer.py`). -/
def normalize_cpp (text : List Char) : List Char :=
  renameIdentifiers cppProtected (preRenameCpp text)

/-- The two normalizer classes behind `get_normalizer`
(`normalizer_factory.py`). -/
inductive NormalizerKind where
  | python
  | cpp
deriving DecidableEq

/-- The pre-renaming canonicalization of each normalizer. -/
def preRename : NormalizerKind → List Char → List Char
  | .python, t => preRenamePython t
  | .cpp, t => preRenameCpp t

/-- The reserved-token set of each normalizer. -/
def reservedOf : NormalizerKind → List (List Char)
  | .python => pythonProtected
  | .cpp => cppProtected

/-- `normalizer.normalize(text)` for either normalizer class. -/
def normalize : NormalizerKind → List Char → List Char
  | .python, t => normalize_python t
  | .cpp, t => normalize_cpp t

/-- Embedding of `get_normalizer(language)` (`normalizer_factory.py`); the
raised `ValueError` is `Except.error` with the same message. -/
def get_normalizer (language : String) : Except String NormalizerKind :=
  if language = "python" then .ok .python
  else if language = "cpp" ∨ language = "c" then .ok .cpp
  else .error ("Unsupported language: " ++ language)

/-- Embedding of `robust_winnowing(text, language, k, window_size)`
(`winnow.py`): normalize, extract k-grams, hash, winnow; errors propagate. -/
def robust_winnowing (text : List Char) (language : String) (k window_size : Int) :
    Except String (Finset Int) := do
  let nrm ← get_normalizer language
  let normalized_text := normalize nrm text
  let kgrams := get_kgrams normalized_text k
  let hashes ← rolling_hash kgrams 256 101
  return select_fingerprints hashes window_size

/-! ### Claim C8: unsupported-language error propagation -/

theorem rolling_hash_kgrams_ok (text : List Char) (k : Int) :
    ∃ hs, rolling_hash (get_kgrams text k) 256 101 = .ok hs := by
  by_cases hk : 0 < k
  · exact ⟨_, text_hashes_eq text k hk⟩
  · rw [get_kgrams, if_pos (Or.inr (Or.inl (by omega)))]
    exact ⟨[], rfl⟩

/-- C8.  A language other than `"python"`, `"cpp"`, `"c"` makes
`get_normalizer` fail with the unsupported-language error (Python's
`ValueError(f"Unsupported language: {language}")`), and `robust_winnowing`
propagates that error unchanged, producing no fingerprint set; every
recognized variant yields a normalizer and a fingerprint set with no error. -/
theorem C8_unsupported_language (language : String) (text : List Char) (k w : Int) :
    (language ≠ "python" → language ≠ "cpp" → language ≠ "c" →
      get_normalizer language = .error ("Unsupported language: " ++ language) ∧
      robust_winnowing text language k w =
        .error ("Unsupported language: " ++ language)) ∧
    (language = "python" ∨ language = "cpp" ∨ language = "c" →
      (∃ nrm, get_normalizer language = .ok nrm) ∧
      ∃ fp, robust_winnowing text language k w = .ok fp) := by
  constructor
  · intro h1 h2 h3
    have hg : get_normalizer language = .error ("Unsupported language: " ++ language) := by
      rw [get_normalizer, if_neg h1, if_neg (by tauto)]
    refine ⟨hg, ?_⟩
    rw [robust_winnowing, hg]
    rfl
  · intro h
    have hg : ∃ nrm, get_normalizer language = .ok nrm := by
      rcases h with h | h | h
      · exact ⟨.python, by rw [get_normalizer, if_pos h]⟩
      · exact ⟨.cpp, by rw [get_normalizer]; rw [if_neg (by rw [h]; decide), if_pos (Or.inl h)]⟩
      · exact ⟨.cpp, by rw [get_normalizer]; rw [if_neg (by rw [h]; decide), if_pos (Or.inr h)]⟩
    obtain ⟨nrm, hnrm⟩ := hg
    refine ⟨⟨nrm, hnrm⟩, ?_⟩
    obtain ⟨hs, hhs⟩ := rolling_hash_kgrams_ok (normalize nrm text) k
    refine ⟨select_fingerprints hs w, ?_⟩
    rw [robust_winnowing, hnrm]
    show (rolling_hash (get_kgrams (normalize nrm text) k) 256 101).bind _ = _
    rw [hhs]
    rfl

/-- Witness for C8 at the unrecognized language `"java"`. -/
theorem C8_witness :
    get_normalizer "java" = .error ("Unsupported language: " ++ "java") ∧
    robust_winnowing ['x'] "java" 1 1 = .error ("Unsupported language: " ++ "java") :=
  (C8_unsupported_language "java" ['x'] 1 1).1 (by decide) (by decide) (by decide)

/-! ### Whitespace canonicalization (claim C7)

`NoWsPair a b` says `a` and `b` are not both whitespace; a text with
`List.Chain' NoWsPair` has no two consecutive whitespace characters. -/

/-- Two adjacent characters are not both whitespace. -/
def NoWsPair (a b : Char) : Prop := ¬(a.isWhitespace = true ∧ b.isWhitespace = true)

theorem wordChar_not_ws (c : Char) (h : isWordChar c = true) : c.isWhitespace = false := by
  by_contra hws
  have hws' : c.isWhitespace = true := by
    revert hws
    cases c.isWhitespace <;> simp
  simp [Char.isWhitespace] at hws'
  rcases hws' with ((h1 | h1) | h1) | h1 <;> (subst h1; exact absurd h (by decide))

theorem head?_dropWhile_false (p : Char → Bool) :
    ∀ (l : List Char) (c : Char), (l.dropWhile p).head? = some c → p c = false := by
  intro l
  induction l with
  | nil => intro c h; simp [List.dropWhile] at h
  | cons a rest ih =>
    intro c h
    rw [List.dropWhile_cons] at h
    split_ifs at h with hp
    · exact ih c h
    · simp only [List.head?_cons, Option.some.injEq] at h
      subst h
      simpa using hp

theorem chain'_suffix {R : Char → Char → Prop} {l' l : List Char}
    (hsuf : l' <:+ l) (h : List.Chain' R l) : List.Chain' R l' := by
  obtain ⟨pre, rfl⟩ := hsuf
  exact (List.chain'_append.mp h).2.1

theorem suffix_getLast? {l' l : List Char} (hsuf : l' <:+ l) (hne : l' ≠ []) :
    l'.getLast? = l.getLast? := by
  obtain ⟨pre, rfl⟩ := hsuf
  exact (List.getLast?_append_of_ne_nil pre hne).symm

theorem chain'_of_all_nonws :
    ∀ (m : List Char), (∀ c ∈ m, c.isWhitespace = false) → List.Chain' NoWsPair m := by
  intro m
  induction m with
  | nil => intro _; exact List.chain'_nil
  | cons a rest ih =>
    intro h
    rw [List.chain'_cons']
    refine ⟨?_, ih (fun c hc => h c (List.mem_cons_of_mem _ hc))⟩
    intro y _ hcontra
    have ha := h a (List.mem_cons_self _ _)
    rw [hcontra.1] at ha
    exact Bool.noConfusion ha

theorem mem_of_getLast?_char {l : List Char} {a : Char} (h : l.getLast? = some a) :
    a ∈ l := by
  induction l with
  | nil => simp at h
  | cons x xs ih =>
    rcases xs with _ | ⟨y, ys⟩
    · simp at h
      subst h
      exact List.mem_cons_self _ _
    · rw [List.getLast?_cons_cons] at h
      exact List.mem_cons_of_mem _ (ih h)

/-! #### `collapseWs` establishes the invariants -/

theorem collapseWsF_head_nonws (fuel : Nat) (l : List Char)
    (hl : ∀ c, l.head? = some c → c.isWhitespace = false) :
    ∀ c, (collapseWsF fuel l).head? = some c → c.isWhitespace = false := by
  intro c h
  match fuel, l with
  | 0, _ => simp [collapseWsF] at h
  | fuel + 1, [] => simp [collapseWsF] at h
  | fuel + 1, a :: rest =>
    rw [collapseWsF] at h
    split_ifs at h with hws
    · have := hl a rfl
      rw [this] at hws
      exact Bool.noConfusion hws
    · simp only [List.head?_cons, Option.some.injEq] at h
      subst h
      have := hl a rfl
      simpa using this

theorem collapseWsF_chain (fuel : Nat) :
    ∀ l : List Char, List.Chain' NoWsPair (collapseWsF fuel l) := by
  induction fuel with
  | zero => intro l; simp [collapseWsF]
  | succ fuel ih =>
    intro l
    match l with
    | [] => simp [collapseWsF]
    | a :: rest =>
      rw [collapseWsF]
      split_ifs with hws
      · rw [List.chain'_cons']
        refine ⟨?_, ih _⟩
        intro y hy hcontra
        have hnw : y.isWhitespace = false := by
          refine collapseWsF_head_nonws fuel _ ?_ y hy
          intro c hc
          exact head?_dropWhile_false Char.isWhitespace _ c hc
        rw [hcontra.2] at hnw
        exact Bool.noConfusion hnw
      · rw [List.chain'_cons']
        refine ⟨?_, ih _⟩
        intro y _ hcontra
        have : a.isWhitespace = false := by
          revert hws
          cases a.isWhitespace <;> simp
        rw [hcontra.1] at this
        exact Bool.noConfusion this

theorem collapseWsF_ws_space (fuel : Nat) :
    ∀ (l : List Char) (c : Char), c ∈ collapseWsF fuel l →
      c.isWhitespace = true → c = ' ' := by
  induction fuel with
  | zero => intro l c hc _; simp [collapseWsF] at hc
  | succ fuel ih =>
    intro l c hc hws
    match l with
    | [] => simp [collapseWsF] at hc
    | a :: rest =>
      rw [collapseWsF] at hc
      split_ifs at hc with hwsa
      · rcases List.mem_cons.mp hc with rfl | hc'
        · rfl
        · exact ih _ c hc' hws
      · rcases List.mem_cons.mp hc with rfl | hc'
        · rw [hws] at hwsa
          exact absurd rfl hwsa
        · exact ih _ c hc' hws

theorem collapseWs_chain (l : List Char) : List.Chain' NoWsPair (collapseWs l) :=
  collapseWsF_chain l.length l

theorem collapseWs_ws_space (l : List Char) :
    ∀ c ∈ collapseWs l, c.isWhitespace = true → c = ' ' :=
  fun c hc => collapseWsF_ws_space l.length l c hc

/-! #### `pyStrip` preserves the invariants and trims the ends -/

theorem noWsPair_symm_imp : ∀ a b : Char, NoWsPair a b → NoWsPair b a := by
  intro a b h hc
  exact h ⟨hc.2, hc.1⟩

theorem pyStrip_chain (l : List Char) (h : List.Chain' NoWsPair l) :
    List.Chain' NoWsPair (pyStrip l) := by
  unfold pyStrip
  rw [List.chain'_reverse]
  refine List.Chain'.imp (fun a b hab => noWsPair_symm_imp a b hab) ?_
  refine chain'_suffix (List.dropWhile_suffix _) ?_
  rw [List.chain'_reverse]
  refine List.Chain'.imp (fun a b hab => noWsPair_symm_imp a b hab) ?_
  exact chain'_suffix (List.dropWhile_suffix _) h

theorem pyStrip_mem (l : List Char) : ∀ c ∈ pyStrip l, c ∈ l := by
  intro c hc
  unfold pyStrip at hc
  rw [List.mem_reverse] at hc
  have h1 := (List.dropWhile_suffix Char.isWhitespace).subset hc
  rw [List.mem_reverse] at h1
  exact (List.dropWhile_suffix Char.isWhitespace).subset h1

theorem pyStrip_head_nonws (l : List Char) :
    ∀ c, (pyStrip l).head? = some c → c.isWhitespace = false := by
  intro c hc
  unfold pyStrip at hc
  rw [List.head?_reverse] at hc
  have hne : (((l.dropWhile Char.isWhitespace).reverse).dropWhile Char.isWhitespace) ≠ [] := by
    intro h0
    rw [h0] at hc
    simp at hc
  have := suffix_getLast? (List.dropWhile_suffix Char.isWhitespace) hne
  rw [this, List.getLast?_reverse] at hc
  exact head?_dropWhile_false Char.isWhitespace _ c hc

theorem pyStrip_last_nonws (l : List Char) :
    ∀ c, (pyStrip l).getLast? = some c → c.isWhitespace = false := by
  intro c hc
  unfold pyStrip at hc
  rw [List.getLast?_reverse] at hc
  exact head?_dropWhile_false Char.isWhitespace _ c hc

/-! #### Generic preservation lemmas for `subScanF` -/

theorem subScanF_mem (f : List Char → Option (List Char)) (repl : List Char)
    (hsuffix : ∀ l r, f l = some r → r <:+ l) :
    ∀ (fuel : Nat) (l : List Char) (x : Char),
      x ∈ subScanF f repl fuel l → x ∈ l ∨ x ∈ repl := by
  intro fuel
  induction fuel with
  | zero => intro l x hx; simp [subScanF] at hx
  | succ fuel ih =>
    intro l x hx
    match l with
    | [] => simp [subScanF] at hx
    | c :: rest =>
      rw [subScanF] at hx
      match hm : f (c :: rest) with
      | some r =>
        rw [hm] at hx
        rcases List.mem_append.mp hx with hx | hx
        · exact Or.inr hx
        · rcases ih r x hx with hx | hx
          · exact Or.inl ((hsuffix _ _ hm).subset hx)
          · exact Or.inr hx
      | none =>
        rw [hm] at hx
        rcases List.mem_cons.mp hx with rfl | hx
        · exact Or.inl (List.mem_cons_self _ _)
        · rcases ih rest x hx with hx | hx
          · exact Or.inl (List.mem_cons_of_mem _ hx)
          · exact Or.inr hx

theorem subScanF_ne_nil (f : List Char → Option (List Char)) (repl : List Char)
    (hrne : repl ≠ []) (fuel : Nat) (l : List Char) (hl : l ≠ []) :
    subScanF f repl (fuel + 1) l ≠ [] := by
  match l with
  | [] => exact absurd rfl hl
  | c :: rest =>
    rw [subScanF]
    match hm : f (c :: rest) with
    | some r =>
      simp only
      intro hcontra
      rcases List.append_eq_nil.mp hcontra with ⟨h1, -⟩
      exact hrne h1
    | none => simp only; intro hcontra; exact List.noConfusion hcontra

theorem subScanF_head_cases (f : List Char → Option (List Char)) (repl : List Char)
    (hrne : repl ≠ []) :
    ∀ (fuel : Nat) (l : List Char),
      (subScanF f repl fuel l).head? = none ∨
      (subScanF f repl fuel l).head? = l.head? ∨
      (subScanF f repl fuel l).head? = repl.head? := by
  intro fuel l
  match fuel, l with
  | 0, _ => left; simp [subScanF]
  | fuel + 1, [] => left; simp [subScanF]
  | fuel + 1, c :: rest =>
    rw [subScanF]
    match hm : f (c :: rest) with
    | some r =>
      simp only
      right; right
      match repl, hrne with
      | d :: repl', _ => rw [List.cons_append]; rfl
    | none =>
      simp only
      right; left
      rfl

theorem subScanF_nil (f : List Char → Option (List Char)) (repl : List Char) :
    ∀ fuel, subScanF f repl fuel [] = [] := by
  intro fuel
  cases fuel <;> rfl

theorem getLast?_ne_none_char {l : List Char} (h : l ≠ []) : l.getLast? ≠ none := by
  induction l with
  | nil => exact absurd rfl h
  | cons x xs ih =>
    rcases xs with _ | ⟨y, ys⟩
    · simp
    · rw [List.getLast?_cons_cons]
      exact ih (by simp)

theorem subScanF_last_cases (f : List Char → Option (List Char)) (repl : List Char)
    (hrne : repl ≠ []) (hsuffix : ∀ l r, f l = some r → r <:+ l)
    (hlen : ∀ l r, f l = some r → r.length < l.length) :
    ∀ (fuel : Nat) (l : List Char), l.length ≤ fuel →
      (subScanF f repl fuel l).getLast? = none ∨
      (subScanF f repl fuel l).getLast? = l.getLast? ∨
      (subScanF f repl fuel l).getLast? = repl.getLast? := by
  intro fuel
  induction fuel with
  | zero =>
    intro l hl
    left
    simp [subScanF]
  | succ fuel ih =>
    intro l hl
    match l with
    | [] => left; simp [subScanF]
    | c :: rest =>
      rw [subScanF]
      match hm : f (c :: rest) with
      | some r =>
        simp only
        by_cases hrec : subScanF f repl fuel r = []
        · rw [hrec, List.append_nil]
          right; right; rfl
        · rw [List.getLast?_append_of_ne_nil repl hrec]
          have hrlen : r.length ≤ fuel := by
            have := hlen _ _ hm
            simp only [List.length_cons] at this hl
            omega
          rcases ih r hrlen with hc | hc | hc
          · exact absurd hc (getLast?_ne_none_char hrec)
          · right; left
            rw [hc]
            have hrne2 : r ≠ [] := by
              intro h0
              rw [h0, subScanF_nil] at hrec
              exact hrec rfl
            exact suffix_getLast? (hsuffix _ _ hm) hrne2
          · right; right
            exact hc
      | none =>
        simp only
        by_cases hrec : subScanF f repl fuel rest = []
        · rw [hrec]
          rcases rest with _ | ⟨d, rest'⟩
          · right; left; rfl
          · rcases fuel with _ | fuel'
            · simp only [List.length_cons] at hl
              omega
            · exact absurd hrec (subScanF_ne_nil f repl hrne fuel' _ (by simp))
        · have hrestne : rest ≠ [] := by
            intro h0
            rw [h0, subScanF_nil] at hrec
            exact hrec rfl
          have h1 : (c :: subScanF f repl fuel rest).getLast? =
              (subScanF f repl fuel rest).getLast? := by
            rcases hrec2 : subScanF f repl fuel rest with _ | ⟨y, ys⟩
            · exact absurd hrec2 hrec
            · rw [List.getLast?_cons_cons]
          rw [h1]
          have hrlen : rest.length ≤ fuel := by
            simp only [List.length_cons] at hl
            omega
          rcases ih rest hrlen with hc | hc | hc
          · left; exact hc
          · right; left
            rw [hc]
            rcases rest with _ | ⟨d, rest'⟩
            · exact absurd rfl hrestne
            · rw [List.getLast?_cons_cons]
          · right; right
            exact hc

theorem subScanF_chain (f : List Char → Option (List Char)) (repl : List Char)
    (hsuffix : ∀ l r, f l = some r → r <:+ l)
    (hrchain : List.Chain' NoWsPair repl)
    (hrhead : ∀ y, repl.head? = some y → y.isWhitespace = false)
    (hrlast : ∀ x, repl.getLast? = some x → x.isWhitespace = false)
    (hrne : repl ≠ []) :
    ∀ (fuel : Nat) (l : List Char), List.Chain' NoWsPair l →
      List.Chain' NoWsPair (subScanF f repl fuel l) := by
  intro fuel
  induction fuel with
  | zero => intro l _; simp [subScanF]
  | succ fuel ih =>
    intro l h
    match l with
    | [] => simp [subScanF]
    | c :: rest =>
      rw [subScanF]
      match hm : f (c :: rest) with
      | some r =>
        simp only
        rw [List.chain'_append]
        refine ⟨hrchain, ih r (chain'_suffix (hsuffix _ _ hm) h), ?_⟩
        intro x hx y _
        intro hcontra
        have := hrlast x (Option.mem_def.mp hx)
        rw [hcontra.1] at this
        exact Bool.noConfusion this
      | none =>
        simp only
        rw [List.chain'_cons']
        refine ⟨?_, ih rest (List.Chain'.tail h)⟩
        intro y hy hcontra
        have hy' : (subScanF f repl fuel rest).head? = some y := Option.mem_def.mp hy
        rcases subScanF_head_cases f repl hrne fuel rest with hc | hc | hc
        · rw [hc] at hy'
          exact Option.noConfusion hy'
        · rw [hc] at hy'
          rcases rest with _ | ⟨d, rest'⟩
          · simp at hy'
          · simp only [List.head?_cons, Option.some.injEq] at hy'
            have hcd : NoWsPair c d := (List.chain'_cons'.mp h).1 d (by simp)
            subst hy'
            exact hcd hcontra
        · rw [hc] at hy'
          have := hrhead y hy'
          rw [hcontra.2] at this
          exact Bool.noConfusion this

theorem tryDefineMatch_suffix : ∀ l r, tryDefineMatch l = some r → r <:+ l := by
  intro l r h
  rw [tryDefineMatch] at h
  split_ifs at h with h1 h2
  match hdw : (l.drop 7).dropWhile Char.isWhitespace, h with
  | c :: rest3, h =>
    simp only at h
    split_ifs at h
    obtain rfl := Option.some.injEq _ _ ▸ h.symm
    have s1 : rest3.dropWhile isMacroChar <:+ rest3 := List.dropWhile_suffix _
    have s2 : rest3 <:+ c :: rest3 := List.suffix_cons _ _
    have s3 : c :: rest3 <:+ l.drop 7 := by
      rw [← hdw]
      exact List.dropWhile_suffix _
    have s4 : l.drop 7 <:+ l := List.drop_suffix _ _
    exact s1.trans (s2.trans (s3.trans s4))

/-! #### Structure of `wordRuns` and `mapRuns` -/

theorem takeWhile_append_all (p : Char → Bool) :
    ∀ (w t : List Char), (∀ c ∈ w, p c = true) →
      (w ++ t).takeWhile p = w ++ t.takeWhile p := by
  intro w
  induction w with
  | nil => intro t _; rfl
  | cons c w' ih =>
    intro t h
    rw [List.cons_append, List.takeWhile_cons, if_pos (h c (List.mem_cons_self _ _)),
      ih t (fun d hd => h d (List.mem_cons_of_mem _ hd)), List.cons_append]

theorem dropWhile_append_all (p : Char → Bool) :
    ∀ (w t : List Char), (∀ c ∈ w, p c = true) →
      (w ++ t).dropWhile p = t.dropWhile p := by
  intro w
  induction w with
  | nil => intro t _; rfl
  | cons c w' ih =>
    intro t h
    rw [List.cons_append, List.dropWhile_cons, if_pos (h c (List.mem_cons_self _ _)),
      ih t (fun d hd => h d (List.mem_cons_of_mem _ hd))]

theorem takeWhile_nil_of_head (p : Char → Bool) (t : List Char)
    (h : ∀ c, t.head? = some c → p c = false) : t.takeWhile p = [] := by
  rcases t with _ | ⟨c, t'⟩
  · rfl
  · rw [List.takeWhile_cons, if_neg]
    rw [h c rfl]
    simp

theorem dropWhile_self_of_head (p : Char → Bool) (t : List Char)
    (h : ∀ c, t.head? = some c → p c = false) : t.dropWhile p = t := by
  rcases t with _ | ⟨c, t'⟩
  · rfl
  · rw [List.dropWhile_cons, if_neg]
    rw [h c rfl]
    simp

theorem head?_dropWhile_nonword (t : List Char) :
    ∀ c, (t.dropWhile isWordChar).head? = some c → isWordChar c = false :=
  fun c hc => head?_dropWhile_false isWordChar t c hc

theorem mapRunsF_nil (f : List Char → List Char) : ∀ fuel, mapRunsF f fuel [] = [] := by
  intro fuel; cases fuel <;> rfl

theorem wordRunsF_nil : ∀ fuel, wordRunsF fuel [] = [] := by
  intro fuel; cases fuel <;> rfl

theorem mapRunsF_fuel_irrel (f : List Char → List Char) :
    ∀ (fuel1 : Nat), ∀ (fuel2 : Nat) (l : List Char), l.length ≤ fuel1 → l.length ≤ fuel2 →
      mapRunsF f fuel1 l = mapRunsF f fuel2 l := by
  intro fuel1
  induction fuel1 with
  | zero =>
    intro fuel2 l h1 _
    have : l = [] := List.eq_nil_of_length_eq_zero (by omega)
    subst this
    rw [mapRunsF_nil, mapRunsF_nil]
  | succ fuel1 ih =>
    intro fuel2 l h1 h2
    match l with
    | [] => rw [mapRunsF_nil, mapRunsF_nil]
    | c :: rest =>
      match fuel2 with
      | 0 => simp at h2
      | fuel2 + 1 =>
        rw [mapRunsF, mapRunsF]
        simp only [List.length_cons] at h1 h2
        have hd := (List.dropWhile_suffix (l := rest) isWordChar).length_le
        split_ifs
        · rw [ih fuel2 (rest.dropWhile isWordChar) (by omega) (by omega)]
        · rw [ih fuel2 rest (by omega) (by omega)]

theorem wordRunsF_fuel_irrel :
    ∀ (fuel1 : Nat), ∀ (fuel2 : Nat) (l : List Char), l.length ≤ fuel1 → l.length ≤ fuel2 →
      wordRunsF fuel1 l = wordRunsF fuel2 l := by
  intro fuel1
  induction fuel1 with
  | zero =>
    intro fuel2 l h1 _
    have : l = [] := List.eq_nil_of_length_eq_zero (by omega)
    subst this
    rw [wordRunsF_nil, wordRunsF_nil]
  | succ fuel1 ih =>
    intro fuel2 l h1 h2
    match l with
    | [] => rw [wordRunsF_nil, wordRunsF_nil]
    | c :: rest =>
      match fuel2 with
      | 0 => simp at h2
      | fuel2 + 1 =>
        rw [wordRunsF, wordRunsF]
        simp only [List.length_cons] at h1 h2
        have hd := (List.dropWhile_suffix (l := rest) isWordChar).length_le
        split_ifs
        · rw [ih fuel2 (rest.dropWhile isWordChar) (by omega) (by omega)]
        · rw [ih fuel2 rest (by omega) (by omega)]

theorem mapRuns_step_word (f : List Char → List Char) (c : Char) (rest : List Char)
    (hc : isWordChar c = true) :
    mapRuns f (c :: rest) =
      f (c :: rest.takeWhile isWordChar) ++ mapRuns f (rest.dropWhile isWordChar) := by
  unfold mapRuns
  rw [show (c :: rest).length = rest.length + 1 from rfl, mapRunsF, if_pos hc]
  congr 1
  exact mapRunsF_fuel_irrel f rest.length _ _
    (List.dropWhile_suffix isWordChar).length_le le_rfl

theorem mapRuns_step_nonword (f : List Char → List Char) (c : Char) (rest : List Char)
    (hc : isWordChar c = false) :
    mapRuns f (c :: rest) = c :: mapRuns f rest := by
  unfold mapRuns
  rw [show (c :: rest).length = rest.length + 1 from rfl, mapRunsF, if_neg (by rw [hc]; simp)]

theorem wordRuns_step_word (c : Char) (rest : List Char) (hc : isWordChar c = true) :
    wordRuns (c :: rest) =
      (c :: rest.takeWhile isWordChar) :: wordRuns (rest.dropWhile isWordChar) := by
  unfold wordRuns
  rw [show (c :: rest).length = rest.length + 1 from rfl, wordRunsF, if_pos hc]
  congr 1
  exact wordRunsF_fuel_irrel rest.length _ _
    (List.dropWhile_suffix isWordChar).length_le le_rfl

theorem wordRuns_step_nonword (c : Char) (rest : List Char) (hc : isWordChar c = false) :
    wordRuns (c :: rest) = wordRuns rest := by
  unfold wordRuns
  rw [show (c :: rest).length = rest.length + 1 from rfl, wordRunsF, if_neg (by rw [hc]; simp),
    wordRunsF_fuel_irrel rest.length _ _ le_rfl le_rfl]

theorem mapRuns_word_front (f : List Char → List Char) (w t : List Char)
    (hw : w ≠ []) (hword : ∀ c ∈ w, isWordChar c = true)
    (ht : ∀ c, t.head? = some c → isWordChar c = false) :
    mapRuns f (w ++ t) = f w ++ mapRuns f t := by
  match w, hw with
  | c :: w', _ =>
    rw [List.cons_append, mapRuns_step_word f c (w' ++ t) (hword c (List.mem_cons_self _ _))]
    have h1 : (w' ++ t).takeWhile isWordChar = w' := by
      rw [takeWhile_append_all isWordChar w' t
          (fun d hd => hword d (List.mem_cons_of_mem _ hd)),
        takeWhile_nil_of_head isWordChar t ht, List.append_nil]
    have h2 : (w' ++ t).dropWhile isWordChar = t := by
      rw [dropWhile_append_all isWordChar w' t
          (fun d hd => hword d (List.mem_cons_of_mem _ hd)),
        dropWhile_self_of_head isWordChar t ht]
    rw [h1, h2]

theorem wordRuns_word_front (w t : List Char)
    (hw : w ≠ []) (hword : ∀ c ∈ w, isWordChar c = true)
    (ht : ∀ c, t.head? = some c → isWordChar c = false) :
    wordRuns (w ++ t) = w :: wordRuns t := by
  match w, hw with
  | c :: w', _ =>
    rw [List.cons_append, wordRuns_step_word c (w' ++ t) (hword c (List.mem_cons_self _ _))]
    have h1 : (w' ++ t).takeWhile isWordChar = w' := by
      rw [takeWhile_append_all isWordChar w' t
          (fun d hd => hword d (List.mem_cons_of_mem _ hd)),
        takeWhile_nil_of_head isWordChar t ht, List.append_nil]
    have h2 : (w' ++ t).dropWhile isWordChar = t := by
      rw [dropWhile_append_all isWordChar w' t
          (fun d hd => hword d (List.mem_cons_of_mem _ hd)),
        dropWhile_self_of_head isWordChar t ht]
    rw [h1, h2]

theorem run_facts (c : Char) (rest : List Char) (hc : isWordChar c = true) :
    (c :: rest.takeWhile isWordChar) ≠ [] ∧
    (∀ d ∈ c :: rest.takeWhile isWordChar, isWordChar d = true) ∧
    (∀ d, (rest.dropWhile isWordChar).head? = some d → isWordChar d = false) ∧
    (rest.dropWhile isWordChar).length ≤ rest.length ∧
    (rest.dropWhile isWordChar) <:+ (c :: rest) ∧
    c :: rest = (c :: rest.takeWhile isWordChar) ++ rest.dropWhile isWordChar := by
  refine ⟨by simp, ?_, head?_dropWhile_nonword rest,
    (List.dropWhile_suffix isWordChar).length_le,
    (List.dropWhile_suffix isWordChar).trans (List.suffix_cons c rest), ?_⟩
  · intro d hd
    rcases List.mem_cons.mp hd with rfl | hd'
    · exact hc
    · exact List.mem_takeWhile_imp hd'
  · rw [List.cons_append, List.takeWhile_append_dropWhile]

theorem mapRuns_nil (f : List Char → List Char) : mapRuns f [] = [] := rfl

theorem wordRuns_nil : wordRuns [] = [] := rfl

theorem wordRuns_all_aux :
    ∀ (n : Nat) (l : List Char), l.length ≤ n →
      ∀ r ∈ wordRuns l, r ≠ [] ∧ ∀ c ∈ r, isWordChar c = true := by
  intro n
  induction n with
  | zero =>
    intro l hl r hr
    have : l = [] := List.eq_nil_of_length_eq_zero (by omega)
    subst this
    simp [wordRuns_nil] at hr
  | succ n ih =>
    intro l hl r hr
    match l with
    | [] => simp [wordRuns_nil] at hr
    | c :: rest =>
      simp only [List.length_cons] at hl
      by_cases hc : isWordChar c = true
      · obtain ⟨hrun_ne, hrun_word, -, hlen, -, -⟩ := run_facts c rest hc
        rw [wordRuns_step_word c rest hc] at hr
        rcases List.mem_cons.mp hr with rfl | hr'
        · exact ⟨hrun_ne, hrun_word⟩
        · exact ih _ (by omega) r hr'
      · rw [wordRuns_step_nonword c rest (by revert hc; cases isWordChar c <;> simp)] at hr
        exact ih rest (by omega) r hr

theorem wordRuns_all (l : List Char) :
    ∀ r ∈ wordRuns l, r ≠ [] ∧ ∀ c ∈ r, isWordChar c = true :=
  wordRuns_all_aux l.length l le_rfl

/-- The standing hypothesis on run-rewriting functions: nonempty all-word
runs are mapped to nonempty all-word strings. -/
def RunPreserving (f : List Char → List Char) : Prop :=
  ∀ r, r ≠ [] → (∀ c ∈ r, isWordChar c = true) →
    f r ≠ [] ∧ ∀ c ∈ f r, isWordChar c = true

theorem mapRuns_ne_nil (f : List Char → List Char) (hf : RunPreserving f)
    (l : List Char) (hl : l ≠ []) : mapRuns f l ≠ [] := by
  match l with
  | c :: rest =>
    by_cases hc : isWordChar c = true
    · obtain ⟨hrun_ne, hrun_word, -, -, -, -⟩ := run_facts c rest hc
      rw [mapRuns_step_word f c rest hc]
      intro h0
      exact (hf _ hrun_ne hrun_word).1 (List.append_eq_nil.mp h0).1
    · rw [mapRuns_step_nonword f c rest (by revert hc; cases isWordChar c <;> simp)]
      simp

theorem mapRuns_head_of_nonword (f : List Char → List Char) (l : List Char)
    (hl : ∀ c, l.head? = some c → isWordChar c = false) :
    (mapRuns f l).head? = l.head? := by
  match l with
  | [] => rfl
  | c :: rest =>
    rw [mapRuns_step_nonword f c rest (hl c rfl)]
    rfl

theorem mapRuns_head_cases (f : List Char → List Char) (hf : RunPreserving f)
    (l : List Char) :
    (mapRuns f l).head? = none ∨ (mapRuns f l).head? = l.head? ∨
      ∃ y, (mapRuns f l).head? = some y ∧ isWordChar y = true := by
  match l with
  | [] => left; rfl
  | c :: rest =>
    by_cases hc : isWordChar c = true
    · obtain ⟨hrun_ne, hrun_word, -, -, -, -⟩ := run_facts c rest hc
      rw [mapRuns_step_word f c rest hc]
      obtain ⟨hfne, hfword⟩ := hf _ hrun_ne hrun_word
      right; right
      match hfr : f (c :: rest.takeWhile isWordChar), hfne with
      | y :: ys, _ =>
        refine ⟨y, by rw [List.cons_append]; rfl, ?_⟩
        refine hfword y ?_
        rw [hfr]
        exact List.mem_cons_self _ _
    · rw [mapRuns_step_nonword f c rest (by revert hc; cases isWordChar c <;> simp)]
      right; left
      rfl

theorem runs_of_mapRuns_aux (f : List Char → List Char) (hf : RunPreserving f) :
    ∀ (n : Nat) (l : List Char), l.length ≤ n →
      wordRuns (mapRuns f l) = (wordRuns l).map f := by
  intro n
  induction n with
  | zero =>
    intro l hl
    have : l = [] := List.eq_nil_of_length_eq_zero (by omega)
    subst this
    rfl
  | succ n ih =>
    intro l hl
    match l with
    | [] => rfl
    | c :: rest =>
      simp only [List.length_cons] at hl
      by_cases hc : isWordChar c = true
      · obtain ⟨hrun_ne, hrun_word, ht, hlen, -, -⟩ := run_facts c rest hc
        rw [mapRuns_step_word f c rest hc, wordRuns_step_word c rest hc]
        obtain ⟨hfne, hfword⟩ := hf _ hrun_ne hrun_word
        rw [wordRuns_word_front (f (c :: rest.takeWhile isWordChar))
            (mapRuns f (rest.dropWhile isWordChar)) hfne hfword ?_]
        · rw [List.map_cons, ih _ (by omega)]
        · intro d hd
          rw [mapRuns_head_of_nonword f _ ht] at hd
          exact ht d hd
      · have hc' : isWordChar c = false := by revert hc; cases isWordChar c <;> simp
        rw [mapRuns_step_nonword f c rest hc', wordRuns_step_nonword c rest hc',
          wordRuns_step_nonword c (mapRuns f rest) hc', ih rest (by omega)]

theorem runs_of_mapRuns (f : List Char → List Char) (hf : RunPreserving f) (l : List Char) :
    wordRuns (mapRuns f l) = (wordRuns l).map f :=
  runs_of_mapRuns_aux f hf l.length l le_rfl

theorem mapRuns_comp_aux (f g : List Char → List Char) (hg : RunPreserving g) :
    ∀ (n : Nat) (l : List Char), l.length ≤ n →
      mapRuns f (mapRuns g l) = mapRuns (fun r => f (g r)) l := by
  intro n
  induction n with
  | zero =>
    intro l hl
    have : l = [] := List.eq_nil_of_length_eq_zero (by omega)
    subst this
    rfl
  | succ n ih =>
    intro l hl
    match l with
    | [] => rfl
    | c :: rest =>
      simp only [List.length_cons] at hl
      by_cases hc : isWordChar c = true
      · obtain ⟨hrun_ne, hrun_word, ht, hlen, -, -⟩ := run_facts c rest hc
        rw [mapRuns_step_word g c rest hc,
          mapRuns_step_word (fun r => f (g r)) c rest hc]
        obtain ⟨hgne, hgword⟩ := hg _ hrun_ne hrun_word
        rw [mapRuns_word_front f (g (c :: rest.takeWhile isWordChar))
            (mapRuns g (rest.dropWhile isWordChar)) hgne hgword ?_]
        · rw [ih _ (by omega)]
        · intro d hd
          rw [mapRuns_head_of_nonword g _ ht] at hd
          exact ht d hd
      · have hc' : isWordChar c = false := by revert hc; cases isWordChar c <;> simp
        rw [mapRuns_step_nonword g c rest hc',
          mapRuns_step_nonword f c (mapRuns g rest) hc',
          mapRuns_step_nonword (fun r => f (g r)) c rest hc', ih rest (by omega)]

theorem mapRuns_comp (f g : List Char → List Char) (hg : RunPreserving g) (l : List Char) :
    mapRuns f (mapRuns g l) = mapRuns (fun r => f (g r)) l :=
  mapRuns_comp_aux f g hg l.length l le_rfl

theorem mapRuns_congr_aux (f g : List Char → List Char) :
    ∀ (n : Nat) (l : List Char), l.length ≤ n →
      (∀ r ∈ wordRuns l, f r = g r) → mapRuns f l = mapRuns g l := by
  intro n
  induction n with
  | zero =>
    intro l hl _
    have : l = [] := List.eq_nil_of_length_eq_zero (by omega)
    subst this
    rfl
  | succ n ih =>
    intro l hl h
    match l with
    | [] => rfl
    | c :: rest =>
      simp only [List.length_cons] at hl
      by_cases hc : isWordChar c = true
      · obtain ⟨-, -, -, hlen, -, -⟩ := run_facts c rest hc
        rw [mapRuns_step_word f c rest hc, mapRuns_step_word g c rest hc]
        rw [wordRuns_step_word c rest hc] at h
        rw [h _ (List.mem_cons_self _ _), ih _ (by omega)
          (fun r hr => h r (List.mem_cons_of_mem _ hr))]
      · have hc' : isWordChar c = false := by revert hc; cases isWordChar c <;> simp
        rw [mapRuns_step_nonword f c rest hc', mapRuns_step_nonword g c rest hc']
        rw [wordRuns_step_nonword c rest hc'] at h
        rw [ih rest (by omega) h]

theorem mapRuns_congr (f g : List Char → List Char) (l : List Char)
    (h : ∀ r ∈ wordRuns l, f r = g r) : mapRuns f l = mapRuns g l :=
  mapRuns_congr_aux f g l.length l le_rfl h

theorem mapRuns_id_aux :
    ∀ (n : Nat) (l : List Char), l.length ≤ n → mapRuns (fun r => r) l = l := by
  intro n
  induction n with
  | zero =>
    intro l hl
    have : l = [] := List.eq_nil_of_length_eq_zero (by omega)
    subst this
    rfl
  | succ n ih =>
    intro l hl
    match l with
    | [] => rfl
    | c :: rest =>
      simp only [List.length_cons] at hl
      by_cases hc : isWordChar c = true
      · obtain ⟨-, -, -, hlen, -, hdecomp⟩ := run_facts c rest hc
        rw [mapRuns_step_word (fun r => r) c rest hc, ih _ (by omega)]
        exact hdecomp.symm
      · have hc' : isWordChar c = false := by revert hc; cases isWordChar c <;> simp
        rw [mapRuns_step_nonword (fun r => r) c rest hc', ih rest (by omega)]

theorem mapRuns_id (l : List Char) : mapRuns (fun r => r) l = l :=
  mapRuns_id_aux l.length l le_rfl

/-! #### `mapRuns` preserves the whitespace invariants -/

theorem mapRuns_chain_aux (f : List Char → List Char) (hf : RunPreserving f) :
    ∀ (n : Nat) (l : List Char), l.length ≤ n →
      List.Chain' NoWsPair l → List.Chain' NoWsPair (mapRuns f l) := by
  intro n
  induction n with
  | zero =>
    intro l hl _
    have : l = [] := List.eq_nil_of_length_eq_zero (by omega)
    subst this
    exact List.chain'_nil
  | succ n ih =>
    intro l hl h
    match l with
    | [] => exact List.chain'_nil
    | c :: rest =>
      simp only [List.length_cons] at hl
      by_cases hc : isWordChar c = true
      · obtain ⟨hrun_ne, hrun_word, ht, hlen, hsuf, -⟩ := run_facts c rest hc
        rw [mapRuns_step_word f c rest hc]
        obtain ⟨hfne, hfword⟩ := hf _ hrun_ne hrun_word
        rw [List.chain'_append]
        refine ⟨chain'_of_all_nonws _ (fun d hd => wordChar_not_ws d (hfword d hd)), ?_, ?_⟩
        · exact ih _ (by omega) (chain'_suffix hsuf h)
        · intro x hx y _ hcontra
          have hxw := hfword x (mem_of_getLast?_char (Option.mem_def.mp hx))
          have := wordChar_not_ws x hxw
          rw [hcontra.1] at this
          exact Bool.noConfusion this
      · have hc' : isWordChar c = false := by revert hc; cases isWordChar c <;> simp
        rw [mapRuns_step_nonword f c rest hc']
        rw [List.chain'_cons']
        refine ⟨?_, ih rest (by omega) (List.Chain'.tail h)⟩
        intro y hy hcontra
        have hy' := Option.mem_def.mp hy
        rcases mapRuns_head_cases f hf rest with hcs | hcs | hcs
        · rw [hcs] at hy'
          exact Option.noConfusion hy'
        · rw [hcs] at hy'
          rcases rest with _ | ⟨d, rest'⟩
          · simp at hy'
          · simp only [List.head?_cons, Option.some.injEq] at hy'
            have hcd : NoWsPair c d := (List.chain'_cons'.mp h).1 d (by simp)
            subst hy'
            exact hcd hcontra
        · obtain ⟨z, hz1, hz2⟩ := hcs
          rw [hz1] at hy'
          obtain rfl := Option.some.injEq _ _ ▸ hy'.symm
          have := wordChar_not_ws y hz2
          rw [hcontra.2] at this
          exact Bool.noConfusion this

theorem mapRuns_chain (f : List Char → List Char) (hf : RunPreserving f) (l : List Char)
    (h : List.Chain' NoWsPair l) : List.Chain' NoWsPair (mapRuns f l) :=
  mapRuns_chain_aux f hf l.length l le_rfl h

theorem mapRuns_head_nonws (f : List Char → List Char) (hf : RunPreserving f)
    (l : List Char) (h : ∀ c, l.head? = some c → c.isWhitespace = false) :
    ∀ c, (mapRuns f l).head? = some c → c.isWhitespace = false := by
  intro c hc
  rcases mapRuns_head_cases f hf l with hcs | hcs | hcs
  · rw [hcs] at hc
    exact Option.noConfusion hc
  · rw [hcs] at hc
    exact h c hc
  · obtain ⟨y, hy1, hy2⟩ := hcs
    rw [hy1] at hc
    obtain rfl := Option.some.injEq _ _ ▸ hc.symm
    exact wordChar_not_ws c hy2

theorem mapRuns_last_nonws_aux (f : List Char → List Char) (hf : RunPreserving f) :
    ∀ (n : Nat) (l : List Char), l.length ≤ n →
      (∀ c, l.getLast? = some c → c.isWhitespace = false) →
      ∀ c, (mapRuns f l).getLast? = some c → c.isWhitespace = false := by
  intro n
  induction n with
  | zero =>
    intro l hl _ c hc
    have : l = [] := List.eq_nil_of_length_eq_zero (by omega)
    subst this
    simp [mapRuns_nil] at hc
  | succ n ih =>
    intro l hl h c hc
    match l with
    | [] => simp [mapRuns_nil] at hc
    | a :: rest =>
      simp only [List.length_cons] at hl
      by_cases ha : isWordChar a = true
      · obtain ⟨hrun_ne, hrun_word, ht, hlen, hsuf, hdecomp⟩ := run_facts a rest ha
        rw [mapRuns_step_word f a rest ha] at hc
        obtain ⟨hfne, hfword⟩ := hf _ hrun_ne hrun_word
        by_cases htnil : rest.dropWhile isWordChar = []
        · rw [htnil, mapRuns_nil, List.append_nil] at hc
          exact wordChar_not_ws c (hfword c (mem_of_getLast?_char hc))
        · have hrecne : mapRuns f (rest.dropWhile isWordChar) ≠ [] :=
            mapRuns_ne_nil f hf _ htnil
          rw [List.getLast?_append_of_ne_nil _ hrecne] at hc
          refine ih _ (by omega) ?_ c hc
          intro d hd
          refine h d ?_
          rw [← suffix_getLast? hsuf htnil]
          exact hd
      · have ha' : isWordChar a = false := by revert ha; cases isWordChar a <;> simp
        rw [mapRuns_step_nonword f a rest ha'] at hc
        by_cases hrestnil : rest = []
        · subst hrestnil
          rw [mapRuns_nil] at hc
          simp at hc
          subst hc
          exact h _ rfl
        · have hrecne : mapRuns f rest ≠ [] := mapRuns_ne_nil f hf rest hrestnil
          have h1 : (a :: mapRuns f rest).getLast? = (mapRuns f rest).getLast? := by
            rcases hrec2 : mapRuns f rest with _ | ⟨y, ys⟩
            · exact absurd hrec2 hrecne
            · rw [List.getLast?_cons_cons]
          rw [h1] at hc
          refine ih rest (by omega) ?_ c hc
          intro d hd
          refine h d ?_
          rw [← suffix_getLast? (List.suffix_cons a rest) hrestnil]
          exact hd

theorem mapRuns_last_nonws (f : List Char → List Char) (hf : RunPreserving f)
    (l : List Char) (h : ∀ c, l.getLast? = some c → c.isWhitespace = false) :
    ∀ c, (mapRuns f l).getLast? = some c → c.isWhitespace = false :=
  mapRuns_last_nonws_aux f hf l.length l le_rfl h

theorem mapRuns_ws_mem_aux (f : List Char → List Char) (hf : RunPreserving f) :
    ∀ (n : Nat) (l : List Char), l.length ≤ n →
      ∀ x ∈ mapRuns f l, x.isWhitespace = true → x ∈ l := by
  intro n
  induction n with
  | zero =>
    intro l hl x hx _
    have : l = [] := List.eq_nil_of_length_eq_zero (by omega)
    subst this
    simp [mapRuns_nil] at hx
  | succ n ih =>
    intro l hl x hx hws
    match l with
    | [] => simp [mapRuns_nil] at hx
    | a :: rest =>
      simp only [List.length_cons] at hl
      by_cases ha : isWordChar a = true
      · obtain ⟨hrun_ne, hrun_word, ht, hlen, hsuf, -⟩ := run_facts a rest ha
        rw [mapRuns_step_word f a rest ha] at hx
        obtain ⟨hfne, hfword⟩ := hf _ hrun_ne hrun_word
        rcases List.mem_append.mp hx with hx' | hx'
        · have := wordChar_not_ws x (hfword x hx')
          rw [hws] at this
          exact Bool.noConfusion this
        · exact hsuf.subset (ih _ (by omega) x hx' hws)
      · have ha' : isWordChar a = false := by revert ha; cases isWordChar a <;> simp
        rw [mapRuns_step_nonword f a rest ha'] at hx
        rcases List.mem_cons.mp hx with rfl | hx'
        · exact List.mem_cons_self _ _
        · exact List.mem_cons_of_mem _ (ih rest (by omega) x hx' hws)

theorem mapRuns_ws_mem (f : List Char → List Char) (hf : RunPreserving f) (l : List Char) :
    ∀ x ∈ mapRuns f l, x.isWhitespace = true → x ∈ l :=
  fun x hx => mapRuns_ws_mem_aux f hf l.length l le_rfl x hx

/-! #### Placeholders are word tokens; the renaming loop preserves text invariants -/

theorem natDigitsF_all_digit :
    ∀ (fuel n : Nat), ∀ c ∈ natDigitsF fuel n, c.isDigit = true := by
  intro fuel
  induction fuel with
  | zero => intro n c hc; simp [natDigitsF] at hc
  | succ fuel ih =>
    intro n c hc
    rw [natDigitsF] at hc
    split_ifs at hc with h10
    · simp at hc
      subst hc
      interval_cases n <;> decide
    · rcases List.mem_append.mp hc with hc | hc
      · exact ih _ c hc
      · simp at hc
        subst hc
        have hm : n % 10 < 10 := Nat.mod_lt _ (by omega)
        set m := n % 10 with hmdef
        interval_cases m <;> decide

theorem natDigits_ne_nil (n : Nat) : natDigits n ≠ [] := by
  rw [natDigits, natDigitsF]
  split_ifs <;> simp

theorem digit_isWordChar (c : Char) (h : c.isDigit = true) : isWordChar c = true := by
  unfold isWordChar Char.isAlphanum
  rw [h]
  simp

theorem placeholder_word (n : Nat) : ∀ c ∈ placeholder n, isWordChar c = true := by
  intro c hc
  rcases List.mem_cons.mp hc with rfl | hc
  · decide
  · rcases List.mem_cons.mp hc with rfl | hc
    · decide
    · exact digit_isWordChar c (natDigitsF_all_digit _ _ c hc)

theorem placeholder_ne_nil (n : Nat) : placeholder n ≠ [] := by
  simp [placeholder]

theorem replaceWord_runPreserving (ident : List Char) (n : Nat) :
    RunPreserving (fun r => if r = ident then placeholder n else r) := by
  intro r hrne hrword
  dsimp only
  by_cases h : r = ident
  · rw [if_pos h]
    exact ⟨placeholder_ne_nil n, placeholder_word n⟩
  · rw [if_neg h]
    exact ⟨hrne, hrword⟩

theorem renameLoop_preserves (R : List (List Char)) (P : List Char → Prop)
    (hP : ∀ (ident : List Char) (n : Nat) (text : List Char),
      P text → P (replaceWord ident (placeholder n) text)) :
    ∀ (idents : List (List Char)) (seen : List (List Char × Nat)) (varId : Nat)
      (text : List Char), P text → P (renameLoop R idents seen varId text).2.2 := by
  intro idents
  induction idents with
  | nil => intro seen varId text h; exact h
  | cons tok rest ih =>
    intro seen varId text h
    rw [renameLoop]
    split_ifs with h1
    · exact ih seen varId text h
    · rcases hl : seen.lookup tok with _ | n
      · simp only [hl]
        exact ih _ _ _ (hP tok varId text h)
      · simp only [hl]
        exact ih _ _ _ (hP tok n text h)

/-! #### Claim C7 (corrected): whitespace canonicalization -/


instance (a b : Char) : Decidable (NoWsPair a b) :=
  inferInstanceAs (Decidable (¬(a.isWhitespace = true ∧ b.isWhitespace = true)))

/-! Unfolding equations, stated on a variable so that elaboration stays cheap. -/

theorem preRenamePython_unfold (t : List Char) :
    preRenamePython t =
      collapseWs (spaceSymbols pythonSymbols
        (subScan (tryPyString '\'') "'_STR'".toList
          (subScan (tryPyString '"') "\"_STR\"".toList
            (subScan tryTriple [] (subScan tryHashComment [] t))))) := rfl

theorem preRenameCpp_unfold (t : List Char) :
    preRenameCpp t =
      subScan tryDefineMatch "#define _MACRO".toList
        (pyStrip (collapseWs (spaceSymbols cppSymbols
          (subScan (tryQuoted '"') "\"_STR\"".toList
            (subScan tryCharLit "'_C'".toList
              (subScan tryBlockComment []
                (subScan trySlashComment [] t))))))) := rfl

theorem renameIdentifiers_unfold (R : List (List Char)) (t : List Char) :
    renameIdentifiers R t = (renameLoop R (foundIdents t) [] 1 t).2.2 := rfl

theorem normalize_python_eqn (t : List Char) :
    normalize .python t = renameIdentifiers pythonProtected (preRenamePython t) := rfl

theorem normalize_cpp_eqn (t : List Char) :
    normalize .cpp t = renameIdentifiers cppProtected (preRenameCpp t) := rfl

/-! `subScan`-level wrappers of the fuel-indexed substitution lemmas. -/

theorem subScan_chain_nw (f : List Char → Option (List Char)) (repl : List Char)
    (hsuffix : ∀ l r, f l = some r → r <:+ l)
    (hrchain : List.Chain' NoWsPair repl)
    (hrhead : ∀ y, repl.head? = some y → y.isWhitespace = false)
    (hrlast : ∀ x, repl.getLast? = some x → x.isWhitespace = false)
    (hrne : repl ≠ []) (l : List Char) (h : List.Chain' NoWsPair l) :
    List.Chain' NoWsPair (subScan f repl l) :=
  subScanF_chain f repl hsuffix hrchain hrhead hrlast hrne l.length l h

theorem subScan_mem_or (f : List Char → Option (List Char)) (repl : List Char)
    (hsuffix : ∀ l r, f l = some r → r <:+ l) (l : List Char) (x : Char)
    (hx : x ∈ subScan f repl l) : x ∈ l ∨ x ∈ repl :=
  subScanF_mem f repl hsuffix l.length l x hx

theorem subScan_head_cases (f : List Char → Option (List Char)) (repl : List Char)
    (hrne : repl ≠ []) (l : List Char) :
    (subScan f repl l).head? = none ∨
    (subScan f repl l).head? = l.head? ∨
    (subScan f repl l).head? = repl.head? :=
  subScanF_head_cases f repl hrne l.length l

theorem subScan_last_cases (f : List Char → Option (List Char)) (repl : List Char)
    (hrne : repl ≠ []) (hsuffix : ∀ l r, f l = some r → r <:+ l)
    (hlen : ∀ l r, f l = some r → r.length < l.length) (l : List Char) :
    (subScan f repl l).getLast? = none ∨
    (subScan f repl l).getLast? = l.getLast? ∨
    (subScan f repl l).getLast? = repl.getLast? :=
  subScanF_last_cases f repl hrne hsuffix hlen l.length l le_rfl

/-! Invariants of the pre-renaming canonicalizations. -/

theorem preRenamePython_props (text : List Char) :
    List.Chain' NoWsPair (preRenamePython text) ∧
    (∀ c ∈ preRenamePython text, c.isWhitespace = true → c = ' ') := by
  rw [preRenamePython_unfold]
  generalize spaceSymbols pythonSymbols
      (subScan (tryPyString '\'') "'_STR'".toList
        (subScan (tryPyString '"') "\"_STR\"".toList
          (subScan tryTriple [] (subScan tryHashComment [] text)))) = X
  exact ⟨collapseWs_chain X, collapseWs_ws_space X⟩

theorem preRenameCpp_props (text : List Char) :
    List.Chain' NoWsPair (preRenameCpp text) ∧
    (∀ c ∈ preRenameCpp text, c.isWhitespace = true → c = ' ') ∧
    (∀ c, (preRenameCpp text).head? = some c → c.isWhitespace = false) ∧
    (∀ c, (preRenameCpp text).getLast? = some c → c.isWhitespace = false) := by
  rw [preRenameCpp_unfold]
  generalize spaceSymbols cppSymbols
      (subScan (tryQuoted '"') "\"_STR\"".toList
        (subScan tryCharLit "'_C'".toList
          (subScan tryBlockComment []
            (subScan trySlashComment [] text)))) = X
  have hb1 : List.Chain' NoWsPair (pyStrip (collapseWs X)) :=
    pyStrip_chain (collapseWs X) (collapseWs_chain X)
  have hb2 : ∀ c ∈ pyStrip (collapseWs X), c.isWhitespace = true → c = ' ' := by
    intro c hc hcw
    exact collapseWs_ws_space X c (pyStrip_mem (collapseWs X) c hc) hcw
  have hb3 := pyStrip_head_nonws (collapseWs X)
  have hb4 := pyStrip_last_nonws (collapseWs X)
  have hrepl_ne : ("#define _MACRO".toList : List Char) ≠ [] := by decide
  have hrepl_chain : List.Chain' NoWsPair ("#define _MACRO".toList : List Char) := by
    show List.Chain' NoWsPair
      ['#', 'd', 'e', 'f', 'i', 'n', 'e', ' ', '_', 'M', 'A', 'C', 'R', 'O']
    simp only [List.chain'_cons, List.chain'_singleton, and_true]
    decide
  have hrepl_head : ∀ y, ("#define _MACRO".toList : List Char).head? = some y →
      y.isWhitespace = false := by
    intro y hy
    have h0 : ("#define _MACRO".toList : List Char).head? = some '#' := rfl
    rw [h0] at hy
    have : '#' = y := Option.some.injEq _ _ ▸ hy
    subst this
    decide
  have hrepl_last : ∀ y, ("#define _MACRO".toList : List Char).getLast? = some y →
      y.isWhitespace = false := by
    intro y hy
    have h0 : ("#define _MACRO".toList : List Char).getLast? = some 'O' := by decide
    rw [h0] at hy
    have : 'O' = y := Option.some.injEq _ _ ▸ hy
    subst this
    decide
  have hrepl_ws : ∀ c ∈ ("#define _MACRO".toList : List Char),
      c.isWhitespace = true → c = ' ' := by decide
  refine ⟨?_, ?_, ?_, ?_⟩
  · exact subScan_chain_nw tryDefineMatch "#define _MACRO".toList tryDefineMatch_suffix
      hrepl_chain hrepl_head hrepl_last hrepl_ne (pyStrip (collapseWs X)) hb1
  · intro c hc hcw
    rcases subScan_mem_or tryDefineMatch "#define _MACRO".toList tryDefineMatch_suffix
        (pyStrip (collapseWs X)) c hc with h0 | h0
    · exact hb2 c h0 hcw
    · exact hrepl_ws c h0 hcw
  · intro c hc
    rcases subScan_head_cases tryDefineMatch "#define _MACRO".toList hrepl_ne
        (pyStrip (collapseWs X)) with h0 | h0 | h0
    · rw [h0] at hc
      exact Option.noConfusion hc
    · rw [h0] at hc
      exact hb3 c hc
    · rw [h0] at hc
      exact hrepl_head c hc
  · intro c hc
    rcases subScan_last_cases tryDefineMatch "#define _MACRO".toList hrepl_ne
        tryDefineMatch_suffix tryDefineMatch_length (pyStrip (collapseWs X))
      with h0 | h0 | h0
    · rw [h0] at hc
      exact Option.noConfusion hc
    · rw [h0] at hc
      exact hb4 c hc
    · rw [h0] at hc
      exact hrepl_last c hc

/-- Counterexample to C7 as stated: the Python normalizer never strips, so
the text `" a"` normalizes to `" _v1"`, which begins with whitespace. -/
theorem C7_counterexample :
    normalize .python " a".toList = " _v1".toList ∧
    (normalize .python " a".toList).head? = some ' ' ∧
    (' ').isWhitespace = true :=
  ⟨by decide, by decide, by decide⟩

/-- C7, amended.  For every supported normalizer and input text the
canonical text contains no two consecutive whitespace characters and every
whitespace character in it is a plain space; the C/C++ normalizer (which
calls `.strip()`) additionally guarantees no leading and no trailing
whitespace, while the Python normalizer (which never strips) may retain a
single leading or trailing space. -/
theorem C7_whitespace_canonicalization (nrm : NormalizerKind) (text : List Char) :
    List.Chain' NoWsPair (normalize nrm text) ∧
    (∀ c ∈ normalize nrm text, c.isWhitespace = true → c = ' ') ∧
    (nrm = NormalizerKind.cpp →
      (∀ c, (normalize nrm text).head? = some c → c.isWhitespace = false) ∧
      (∀ c, (normalize nrm text).getLast? = some c → c.isWhitespace = false)) := by
  cases nrm
  case python =>
    have hpp := preRenamePython_props text
    rw [normalize_python_eqn, renameIdentifiers_unfold]
    revert hpp
    generalize preRenamePython text = p
    intro hpp
    have hmain := renameLoop_preserves pythonProtected
      (fun t => List.Chain' NoWsPair t ∧ ∀ c ∈ t, c.isWhitespace = true → c = ' ')
      (by
        intro ident n t ht
        refine ⟨mapRuns_chain _ (replaceWord_runPreserving ident n) t ht.1, ?_⟩
        intro c hc hcw
        exact ht.2 c (mapRuns_ws_mem _ (replaceWord_runPreserving ident n) t c hc hcw) hcw)
      (foundIdents p) [] 1 p hpp
    exact ⟨hmain.1, hmain.2, fun h => NormalizerKind.noConfusion h⟩
  case cpp =>
    have hpp := preRenameCpp_props text
    rw [normalize_cpp_eqn, renameIdentifiers_unfold]
    revert hpp
    generalize preRenameCpp text = p
    intro hpp
    have hmain := renameLoop_preserves cppProtected
      (fun t => List.Chain' NoWsPair t ∧
        (∀ c ∈ t, c.isWhitespace = true → c = ' ') ∧
        (∀ c, t.head? = some c → c.isWhitespace = false) ∧
        (∀ c, t.getLast? = some c → c.isWhitespace = false))
      (by
        intro ident n t ht
        refine ⟨mapRuns_chain _ (replaceWord_runPreserving ident n) t ht.1, ?_, ?_, ?_⟩
        · intro c hc hcw
          exact ht.2.1 c
            (mapRuns_ws_mem _ (replaceWord_runPreserving ident n) t c hc hcw) hcw
        · exact mapRuns_head_nonws _ (replaceWord_runPreserving ident n) t ht.2.2.1
        · exact mapRuns_last_nonws _ (replaceWord_runPreserving ident n) t ht.2.2.2)
      (foundIdents p) [] 1 p hpp
    exact ⟨hmain.1, hmain.2.1, fun _ => ⟨hmain.2.2.1, hmain.2.2.2⟩⟩

/-- Witness for C7 at the C++ normalizer on `"int  x "`. -/
theorem C7_witness :
    List.Chain' NoWsPair (normalize .cpp "int  x ".toList) ∧
    (∀ c ∈ normalize .cpp "int  x ".toList, c.isWhitespace = true → c = ' ') ∧
    (∀ c, (normalize .cpp "int  x ".toList).head? = some c → c.isWhitespace = false) ∧
    (∀ c, (normalize .cpp "int  x ".toList).getLast? = some c → c.isWhitespace = false) :=
  ⟨(C7_whitespace_canonicalization .cpp "int  x ".toList).1,
   (C7_whitespace_canonicalization .cpp "int  x ".toList).2.1,
   ((C7_whitespace_canonicalization .cpp "int  x ".toList).2.2 rfl).1,
   ((C7_whitespace_canonicalization .cpp "int  x ".toList).2.2 rfl).2⟩


/-! #### Claim C6 (corrected): identifier renaming -/

/-- The token substitution described by an assignment list `seen`: a run that
is a key of `seen` becomes its placeholder, every other run stays itself. -/
def applySeen (seen : List (List Char × Nat)) (r : List Char) : List Char :=
  ((seen.lookup r).map placeholder).getD r

/-- A token of the shape `_v<digits>` — the shape of every `placeholder n`.
User identifiers of this shape defeat the renaming loop (see the
counterexample), so the amended invariant excludes them. -/
def startsLikePlaceholder (tok : List Char) : Bool :=
  (tok.take 2 == ['_', 'v']) && !(tok.drop 2).isEmpty && (tok.drop 2).all Char.isDigit

/-- The not-reserved, not-digit-only identifiers of a list, each kept at its
first occurrence only, in order: the order in which the renaming loop assigns
fresh placeholders. -/
def firstSights (R : List (List Char)) : List (List Char) → List (List Char) → List (List Char)
  | _, [] => []
  | skip, i :: rest =>
    if i ∈ R ∨ pyIsDigit i = true ∨ i ∈ skip then firstSights R skip rest
    else i :: firstSights R (skip ++ [i]) rest

theorem lookup_eq_none_iff (seen : List (List Char × Nat)) (k : List Char) :
    seen.lookup k = none ↔ k ∉ seen.map Prod.fst := by
  induction seen with
  | nil => simp [List.lookup]
  | cons p rest ih =>
    obtain ⟨a, b⟩ := p
    rw [List.lookup]
    by_cases hk : k = a
    · subst hk
      simp [ih]
    · have hk' : (k == a) = false := beq_eq_false_iff_ne.mpr hk
      rw [hk']
      simp only [List.map_cons, List.mem_cons]
      rw [ih]
      constructor
      · intro h hmem
        rcases hmem with h1 | h1
        · exact hk h1
        · exact h h1
      · intro h hmem
        exact h (Or.inr hmem)

theorem lookup_append_some (s t : List (List Char × Nat)) (k : List Char) (n : Nat)
    (h : s.lookup k = some n) : (s ++ t).lookup k = some n := by
  induction s with
  | nil => simp [List.lookup] at h
  | cons p rest ih =>
    obtain ⟨a, b⟩ := p
    rw [List.cons_append, List.lookup]
    rw [List.lookup] at h
    by_cases hk : (k == a) = true
    · rw [hk] at h ⊢
      exact h
    · have hk' : (k == a) = false := by revert hk; cases k == a <;> simp
      rw [hk'] at h ⊢
      exact ih h

theorem lookup_append_none (s t : List (List Char × Nat)) (k : List Char)
    (h : s.lookup k = none) : (s ++ t).lookup k = t.lookup k := by
  induction s with
  | nil => rfl
  | cons p rest ih =>
    obtain ⟨a, b⟩ := p
    rw [List.cons_append, List.lookup]
    rw [List.lookup] at h
    by_cases hk : (k == a) = true
    · rw [hk] at h
      exact Option.noConfusion h
    · have hk' : (k == a) = false := by revert hk; cases k == a <;> simp
      rw [hk'] at h ⊢
      exact ih h

theorem lookup_singleton_self (k : List Char) (v : Nat) :
    ([(k, v)] : List (List Char × Nat)).lookup k = some v := by
  rw [List.lookup, beq_self_eq_true]

theorem lookup_singleton_ne (k r : List Char) (v : Nat) (h : r ≠ k) :
    ([(k, v)] : List (List Char × Nat)).lookup r = none := by
  rw [List.lookup, beq_eq_false_iff_ne.mpr h]
  rfl

theorem applySeen_some (seen : List (List Char × Nat)) (r : List Char) (n : Nat)
    (h : seen.lookup r = some n) : applySeen seen r = placeholder n := by
  rw [applySeen, h]
  rfl

theorem applySeen_none (seen : List (List Char × Nat)) (r : List Char)
    (h : seen.lookup r = none) : applySeen seen r = r := by
  rw [applySeen, h]
  rfl

theorem startsLikePlaceholder_placeholder (n : Nat) :
    startsLikePlaceholder (placeholder n) = true := by
  rw [startsLikePlaceholder]
  have h1 : (placeholder n).take 2 = ['_', 'v'] := rfl
  have h2 : (placeholder n).drop 2 = natDigits n := rfl
  rw [h1, h2, beq_self_eq_true, Bool.true_and, Bool.and_eq_true, List.all_eq_true]
  constructor
  · rcases h : natDigits n with _ | ⟨c, cs⟩
    · exact absurd h (natDigits_ne_nil n)
    · rfl
  · intro c hc
    exact natDigitsF_all_digit _ _ c hc

theorem char_toNat_ofNat_digit : ∀ d : Nat, d < 10 → (Char.ofNat (48 + d)).toNat = 48 + d := by
  decide

/-- Decimal evaluation of a digit string, inverse to `natDigits`. -/
def digitsVal (l : List Char) : Nat := l.foldl (fun a c => 10 * a + (c.toNat - 48)) 0

theorem digitsVal_concat (l : List Char) (c : Char) :
    digitsVal (l ++ [c]) = 10 * digitsVal l + (c.toNat - 48) := by
  rw [digitsVal, List.foldl_append]
  rfl

theorem digitsVal_natDigitsF : ∀ fuel n, n < fuel → digitsVal (natDigitsF fuel n) = n := by
  intro fuel
  induction fuel with
  | zero => intro n h; omega
  | succ fuel ih =>
    intro n h
    rw [natDigitsF]
    split_ifs with h10
    · show 10 * 0 + ((Char.ofNat (48 + n)).toNat - 48) = n
      rw [char_toNat_ofNat_digit n h10]
      omega
    · rw [digitsVal_concat, ih (n / 10) (by omega),
        char_toNat_ofNat_digit (n % 10) (by omega)]
      omega

theorem natDigits_inj (m n : Nat) (h : natDigits m = natDigits n) : m = n := by
  have h' : natDigitsF (m + 1) m = natDigitsF (n + 1) n := h
  have hm := digitsVal_natDigitsF (m + 1) m (Nat.lt_succ_self m)
  have hn := digitsVal_natDigitsF (n + 1) n (Nat.lt_succ_self n)
  rw [h', hn] at hm
  exact hm.symm

theorem placeholder_inj (m n : Nat) (h : placeholder m = placeholder n) : m = n := by
  have h' : '_' :: 'v' :: natDigits m = '_' :: 'v' :: natDigits n := h
  simp only [List.cons.injEq, true_and] at h'
  exact natDigits_inj m n h'

set_option maxRecDepth 4000 in
theorem reservedOf_no_placeholder (nrm : NormalizerKind) :
    ∀ tok ∈ reservedOf nrm, startsLikePlaceholder tok = false := by
  cases nrm <;> decide

theorem applySeen_runPreserving (seen : List (List Char × Nat)) :
    RunPreserving (applySeen seen) := by
  intro r hrne hrword
  rcases h : seen.lookup r with _ | n
  · rw [applySeen_none seen r h]
    exact ⟨hrne, hrword⟩
  · rw [applySeen_some seen r n h]
    exact ⟨placeholder_ne_nil n, placeholder_word n⟩

theorem subst_applySeen_noop (seen : List (List Char × Nat)) (i : List Char) (n : Nat)
    (hl : seen.lookup i = some n) (hi : startsLikePlaceholder i = false) (r : List Char) :
    (if applySeen seen r = i then placeholder n else applySeen seen r) =
      applySeen seen r := by
  rcases h : seen.lookup r with _ | m
  · rw [applySeen_none seen r h]
    rw [if_neg]
    intro h0
    subst h0
    exact Option.noConfusion (hl.symm.trans h)
  · rw [applySeen_some seen r m h]
    rw [if_neg]
    intro h0
    have hp := startsLikePlaceholder_placeholder m
    rw [h0, hi] at hp
    exact Bool.noConfusion hp

theorem replaceWord_applySeen_noop (pre : List Char) (seen : List (List Char × Nat))
    (i : List Char) (n : Nat) (hl : seen.lookup i = some n)
    (hi : startsLikePlaceholder i = false) :
    replaceWord i (placeholder n) (mapRuns (applySeen seen) pre) =
      mapRuns (applySeen seen) pre := by
  show mapRuns (fun r => if r = i then placeholder n else r)
      (mapRuns (applySeen seen) pre) = mapRuns (applySeen seen) pre
  rw [mapRuns_comp _ _ (applySeen_runPreserving seen) pre]
  exact mapRuns_congr _ _ pre (fun r _ => subst_applySeen_noop seen i n hl hi r)

theorem subst_applySeen_extend (seen : List (List Char × Nat)) (i : List Char) (v : Nat)
    (hl : seen.lookup i = none) (hi : startsLikePlaceholder i = false) (r : List Char) :
    (if applySeen seen r = i then placeholder v else applySeen seen r) =
      applySeen (seen ++ [(i, v)]) r := by
  rcases h : seen.lookup r with _ | m
  · rw [applySeen_none seen r h]
    by_cases hri : r = i
    · subst hri
      rw [if_pos rfl, applySeen_some (seen ++ [(r, v)]) r v]
      rw [lookup_append_none seen _ r h]
      exact lookup_singleton_self r v
    · rw [if_neg hri, applySeen_none (seen ++ [(i, v)]) r]
      rw [lookup_append_none seen _ r h]
      exact lookup_singleton_ne i r v hri
  · rw [applySeen_some seen r m h]
    rw [if_neg]
    · rw [applySeen_some (seen ++ [(i, v)]) r m (lookup_append_some seen _ r m h)]
    · intro h0
      have hp := startsLikePlaceholder_placeholder m
      rw [h0, hi] at hp
      exact Bool.noConfusion hp

theorem replaceWord_applySeen_extend (pre : List Char) (seen : List (List Char × Nat))
    (i : List Char) (v : Nat) (hl : seen.lookup i = none)
    (hi : startsLikePlaceholder i = false) :
    replaceWord i (placeholder v) (mapRuns (applySeen seen) pre) =
      mapRuns (applySeen (seen ++ [(i, v)])) pre := by
  show mapRuns (fun r => if r = i then placeholder v else r)
      (mapRuns (applySeen seen) pre) = mapRuns (applySeen (seen ++ [(i, v)])) pre
  rw [mapRuns_comp _ _ (applySeen_runPreserving seen) pre]
  exact mapRuns_congr _ _ pre (fun r _ => subst_applySeen_extend seen i v hl hi r)

theorem mapRuns_applySeen_nil (pre : List Char) : mapRuns (applySeen []) pre = pre := by
  have h : mapRuns (applySeen []) pre = mapRuns (fun r => r) pre :=
    mapRuns_congr _ _ pre (fun r _ => rfl)
  rw [h, mapRuns_id]

theorem renameLoop_spec (R : List (List Char)) (pre : List Char) :
    ∀ (idents : List (List Char)) (seen : List (List Char × Nat)) (varId : Nat),
      (∀ tok ∈ idents, startsLikePlaceholder tok = false) →
      renameLoop R idents seen varId (mapRuns (applySeen seen) pre) =
        (seen ++ (firstSights R (seen.map Prod.fst) idents).zip
            (List.range' varId (firstSights R (seen.map Prod.fst) idents).length),
         varId + (firstSights R (seen.map Prod.fst) idents).length,
         mapRuns (applySeen (seen ++ (firstSights R (seen.map Prod.fst) idents).zip
            (List.range' varId (firstSights R (seen.map Prod.fst) idents).length))) pre) := by
  intro idents
  induction idents with
  | nil =>
    intro seen varId htok
    rw [renameLoop, firstSights]
    simp
  | cons i rest ih =>
    intro seen varId htok
    have hi : startsLikePlaceholder i = false := htok i (List.mem_cons_self _ _)
    have hrest : ∀ tok ∈ rest, startsLikePlaceholder tok = false :=
      fun tok ht => htok tok (List.mem_cons_of_mem _ ht)
    rw [renameLoop]
    by_cases hskip : i ∈ R ∨ pyIsDigit i = true
    · rw [if_pos hskip, firstSights, if_pos (Or.elim hskip Or.inl (fun h => Or.inr (Or.inl h)))]
      exact ih seen varId hrest
    · rw [if_neg hskip]
      rcases hl : seen.lookup i with _ | n
      · -- first sight: a fresh placeholder is assigned
        simp only [hl]
        have hmem : i ∉ seen.map Prod.fst := (lookup_eq_none_iff seen i).mp hl
        rw [replaceWord_applySeen_extend pre seen i varId hl hi]
        rw [ih (seen ++ [(i, varId)]) (varId + 1) hrest]
        have hmap : (seen ++ [(i, varId)]).map Prod.fst = seen.map Prod.fst ++ [i] := by
          simp
        rw [hmap]
        have hcond : ¬(i ∈ R ∨ pyIsDigit i = true ∨ i ∈ seen.map Prod.fst) := by
          intro h0
          rcases h0 with h0 | h0 | h0
          · exact hskip (Or.inl h0)
          · exact hskip (Or.inr h0)
          · exact hmem h0
        rw [firstSights, if_neg hcond]
        simp only [List.length_cons, List.range'_succ, List.zip_cons_cons,
          List.append_assoc, List.singleton_append, Prod.mk.injEq]
        exact ⟨trivial, by omega, trivial⟩
      · -- already seen: the substitution is a no-op on the running text
        simp only [hl]
        have hmem : i ∈ seen.map Prod.fst := by
          by_contra hmem
          rw [(lookup_eq_none_iff seen i).mpr hmem] at hl
          exact Option.noConfusion hl
        rw [replaceWord_applySeen_noop pre seen i n hl hi]
        rw [firstSights, if_pos (Or.inr (Or.inr hmem))]
        exact ih seen varId hrest

theorem snd_nodup_inj (l : List (List Char × Nat)) (hnd : (l.map Prod.snd).Nodup) :
    ∀ p ∈ l, ∀ q ∈ l, p.2 = q.2 → p = q := by
  induction l with
  | nil => intro p hp; simp at hp
  | cons x rest ih =>
    rw [List.map_cons, List.nodup_cons] at hnd
    intro p hp q hq hpq
    rcases List.mem_cons.mp hp with rfl | hp'
    · rcases List.mem_cons.mp hq with rfl | hq'
      · rfl
      · exact absurd (hpq ▸ List.mem_map_of_mem Prod.snd hq') hnd.1
    · rcases List.mem_cons.mp hq with rfl | hq'
      · exact absurd (hpq ▸ List.mem_map_of_mem Prod.snd hp') hnd.1
      · exact ih hnd.2 p hp' q hq' hpq

theorem renameIdentifiers_spec (R : List (List Char)) (pre : List Char)
    (hR : ∀ tok ∈ R, startsLikePlaceholder tok = false)
    (hnp : ∀ tok ∈ foundIdents pre, startsLikePlaceholder tok = false) :
    ∃ assign : List (List Char × Nat),
      (renameLoop R (foundIdents pre) [] 1 pre).2.2 = mapRuns (applySeen assign) pre ∧
      assign.map Prod.fst = firstSights R [] (foundIdents pre) ∧
      assign.map Prod.snd = List.range' 1 assign.length ∧
      (∀ p ∈ assign, ∀ q ∈ assign, placeholder p.2 = placeholder q.2 → p = q) ∧
      (∀ p ∈ assign, placeholder p.2 ∉ R) := by
  have h := renameLoop_spec R pre (foundIdents pre) [] 1 hnp
  rw [mapRuns_applySeen_nil pre] at h
  simp only [List.map_nil, List.nil_append] at h
  refine ⟨(firstSights R [] (foundIdents pre)).zip
    (List.range' 1 (firstSights R [] (foundIdents pre)).length), ?_, ?_, ?_, ?_, ?_⟩
  · rw [h]
  · exact List.map_fst_zip _ _ (by rw [List.length_range'])
  · have hlen : ((firstSights R [] (foundIdents pre)).zip
        (List.range' 1 (firstSights R [] (foundIdents pre)).length)).length =
        (firstSights R [] (foundIdents pre)).length := by
      rw [List.length_zip, List.length_range', Nat.min_self]
    rw [hlen]
    exact List.map_snd_zip _ _ (by rw [List.length_range'])
  · have hsnd := List.map_snd_zip (firstSights R [] (foundIdents pre))
      (List.range' 1 (firstSights R [] (foundIdents pre)).length)
      (by rw [List.length_range'])
    have hnd : (((firstSights R [] (foundIdents pre)).zip
        (List.range' 1 (firstSights R [] (foundIdents pre)).length)).map Prod.snd).Nodup := by
      rw [hsnd]
      exact List.nodup_range' _ _
    intro p hp q hq hpq
    exact snd_nodup_inj _ hnd p hp q hq (placeholder_inj _ _ hpq)
  · intro p _ hmem
    have hf := hR (placeholder p.2) hmem
    rw [startsLikePlaceholder_placeholder] at hf
    exact Bool.noConfusion hf

theorem preRename_python_eqn (t : List Char) :
    preRename .python t = preRenamePython t := rfl

theorem preRename_cpp_eqn (t : List Char) :
    preRename .cpp t = preRenameCpp t := rfl

theorem reservedOf_python_eqn : reservedOf .python = pythonProtected := rfl

theorem reservedOf_cpp_eqn : reservedOf .cpp = cppProtected := rfl

/-- Counterexample to C6 as stated: on the Python input `"b _v1"` the two
distinct user identifiers `b` and `_v1` both end up as the token `_v2` — the
loop first renames `b` to `_v1`, and the later renaming of the user identifier
`_v1` to `_v2` captures the placeholder as well. -/
theorem C6_counterexample :
    foundIdents (preRename .python "b _v1".toList) = ["b".toList, "_v1".toList] ∧
    "b".toList ≠ "_v1".toList ∧
    normalize .python "b _v1".toList = "_v2 _v2".toList ∧
    wordRuns (normalize .python "b _v1".toList) = ["_v2".toList, "_v2".toList] :=
  ⟨by decide, by decide, by decide, by decide⟩

/-- C6, amended.  Provided no identifier of the canonicalized text has the
placeholder shape `_v<digits>` (the counterexample shows the invariant fails
otherwise), the normalized text is obtained from the pre-renaming text by
replacing every occurrence of each assigned identifier with its single
placeholder token, the assignment keys are exactly the not-reserved,
not-digit-only identifiers in first-occurrence order, their placeholder
numbers are `1, 2, 3, …` in that order, distinct identifiers receive distinct
placeholders, and no placeholder collides with a reserved token. -/
theorem C6_placeholder_invariant (nrm : NormalizerKind) (text : List Char)
    (hnp : ∀ tok ∈ foundIdents (preRename nrm text), startsLikePlaceholder tok = false) :
    ∃ assign : List (List Char × Nat),
      normalize nrm text = mapRuns (applySeen assign) (preRename nrm text) ∧
      assign.map Prod.fst =
        firstSights (reservedOf nrm) [] (foundIdents (preRename nrm text)) ∧
      assign.map Prod.snd = List.range' 1 assign.length ∧
      (∀ p ∈ assign, ∀ q ∈ assign, placeholder p.2 = placeholder q.2 → p = q) ∧
      (∀ p ∈ assign, placeholder p.2 ∉ reservedOf nrm) := by
  cases nrm
  case python =>
    revert hnp
    rw [normalize_python_eqn, renameIdentifiers_unfold, preRename_python_eqn,
      reservedOf_python_eqn]
    generalize preRenamePython text = p
    intro hnp
    exact renameIdentifiers_spec pythonProtected p
      (reservedOf_no_placeholder .python) hnp
  case cpp =>
    revert hnp
    rw [normalize_cpp_eqn, renameIdentifiers_unfold, preRename_cpp_eqn,
      reservedOf_cpp_eqn]
    generalize preRenameCpp text = p
    intro hnp
    exact renameIdentifiers_spec cppProtected p
      (reservedOf_no_placeholder .cpp) hnp

/-- Witness for C6 at the Python normalizer on `"a b"`. -/
theorem C6_witness :
    (∀ tok ∈ foundIdents (preRename .python "a b".toList),
      startsLikePlaceholder tok = false) ∧
    ∃ assign : List (List Char × Nat),
      normalize .python "a b".toList =
        mapRuns (applySeen assign) (preRename .python "a b".toList) ∧
      assign.map Prod.fst =
        firstSights (reservedOf .python) [] (foundIdents (preRename .python "a b".toList)) ∧
      assign.map Prod.snd = List.range' 1 assign.length ∧
      (∀ p ∈ assign, ∀ q ∈ assign, placeholder p.2 = placeholder q.2 → p = q) ∧
      (∀ p ∈ assign, placeholder p.2 ∉ reservedOf .python) :=
  ⟨by decide, C6_placeholder_invariant .python "a b".toList (by decide)⟩

end Plagiat
